import Mathlib

/-!
Shallow embedding of the PIR-to-RIR lowering core (pir_2_rir.cpp): the
SSA allocator (liveness intervals, stack precoloring, slot allocation,
verifier), the CSSA transformation, the emitter's environment handling
and the compilation driver.  Values and basic blocks are identified by
numeric ids; C++ pointer identity becomes id equality.
-/

namespace Rir

/-- Values (PIR instructions and other values) are identified by numeric
    ids; the C++ uses `Value*` pointer identity. -/
abbrev Value := Nat

/-- Per-BB liveness record, `struct BBLiveness : live, begin, end`. -/
structure BBLiveness where
  live : Bool
  lbegin : Nat
  lend : Nat
deriving DecidableEq

/-- Liveness interval vector, indexed by BB id
    (`struct Liveness : public std::vector<BBLiveness>`). -/
abbrev Liveness := List BBLiveness

/-- Overlap test for a single BB, the loop body of
    `SSAAllocator::Liveness::interfere`: both live, and equal begins or
    the earlier interval reaches to (or past) the later begin. -/
def BBLiveness.conflict (mine their : BBLiveness) : Bool :=
  mine.live && their.live &&
    (mine.lbegin == their.lbegin ||
      (decide (mine.lbegin < their.lbegin) && decide (their.lbegin ≤ mine.lend)) ||
      (decide (their.lbegin < mine.lbegin) && decide (mine.lbegin ≤ their.lend)))

/-- `SSAAllocator::Liveness::interfere`: some BB index where both
    records conflict. -/
def Liveness.interfere (a b : Liveness) : Bool :=
  (List.zip a b).any fun p => BBLiveness.conflict p.1 p.2

/-- Default record used only to state positions via `List.getD`. -/
def BBLiveness.dead : BBLiveness := ⟨false, 0, 0⟩

theorem zip_any_iff {α β : Type} (f : α × β → Bool) (da : α) (db : β) :
    ∀ (a : List α) (b : List β),
      ((List.zip a b).any f = true ↔
        ∃ i, i < a.length ∧ i < b.length ∧ f (a.getD i da, b.getD i db) = true)
  | [], b => by simp
  | x :: a, [] => by simp
  | x :: a, y :: b => by
    simp only [List.zip_cons_cons, List.any_cons, Bool.or_eq_true]
    rw [zip_any_iff f da db a b]
    constructor
    · rintro (h | ⟨i, h1, h2, h3⟩)
      · exact ⟨0, by simp, by simp, by simpa using h⟩
      · exact ⟨i + 1, by simpa using h1, by simpa using h2, by simpa using h3⟩
    · rintro ⟨i, h1, h2, h3⟩
      cases i with
      | zero => exact Or.inl (by simpa using h3)
      | succ j =>
        exact Or.inr ⟨j, by simpa using h1, by simpa using h2, by simpa using h3⟩

/-- C5: two Values interfere iff there exists a basic block in which both
    are marked live and either their begin positions are equal, or the
    interval of the one beginning earlier extends to or past the begin
    position of the other (closed-interval overlap; equal begins always
    interfere). -/
theorem interfere_iff_closed_overlap (a b : Liveness) :
    Liveness.interfere a b = true ↔
      ∃ i, i < a.length ∧ i < b.length ∧
        (a.getD i BBLiveness.dead).live = true ∧
        (b.getD i BBLiveness.dead).live = true ∧
        ((a.getD i BBLiveness.dead).lbegin = (b.getD i BBLiveness.dead).lbegin ∨
          ((a.getD i BBLiveness.dead).lbegin < (b.getD i BBLiveness.dead).lbegin ∧
            (b.getD i BBLiveness.dead).lbegin ≤ (a.getD i BBLiveness.dead).lend) ∨
          ((b.getD i BBLiveness.dead).lbegin < (a.getD i BBLiveness.dead).lbegin ∧
            (a.getD i BBLiveness.dead).lbegin ≤ (b.getD i BBLiveness.dead).lend)) := by
  rw [Liveness.interfere,
    zip_any_iff (fun p => BBLiveness.conflict p.1 p.2) BBLiveness.dead BBLiveness.dead a b]
  constructor
  · rintro ⟨i, h1, h2, h3⟩
    refine ⟨i, h1, h2, ?_⟩
    simp only [BBLiveness.conflict, Bool.and_eq_true, Bool.or_eq_true, beq_iff_eq,
      decide_eq_true_eq] at h3
    tauto
  · rintro ⟨i, h1, h2, h3⟩
    refine ⟨i, h1, h2, ?_⟩
    simp only [BBLiveness.conflict, Bool.and_eq_true, Bool.or_eq_true, beq_iff_eq,
      decide_eq_true_eq]
    tauto

/-! ## Slot allocation (SSAAllocator::computeAllocation)

`SlotNumber` is a `size_t` with sentinels `unassignedSlot = 0` and
`stackSlot = (size_t)-1`; proper local slots are `≥ 1`.  We model an
assigned slot as either the stack sentinel or a numbered local; the
unassigned sentinel becomes absence from the allocation map (every read
in the source is guarded by `allocation.count`). -/

inductive Slot
  | stack : Slot
  | loc : Nat → Slot
deriving DecidableEq

/-- The allocation map `std::unordered_map<Value*, SlotNumber>`, as an
    association list where the most recent binding wins. -/
abbrev Alloc := List (Value × Slot)

def Alloc.find : Alloc → Value → Option Slot
  | [], _ => none
  | (w, s) :: a, v => if v = w then some s else Alloc.find a v

def Alloc.set (a : Alloc) (v : Value) (s : Slot) : Alloc := (v, s) :: a

/-- State of `computeAllocation`: the allocation map plus the
    `reverseAlloc` side map (slot number to recorded Values), kept as a
    list of insertions. -/
structure AState where
  alloc : Alloc
  rev : List (Nat × Value)

/-- `slotIsAvailable` from `computeAllocation`: no Value recorded under
    this slot in `reverseAlloc` interferes with `i`. -/
def slotIsAvailable (L : Value → Liveness) (st : AState) (slot : Nat) (i : Value) : Bool :=
  st.rev.all fun p => !(p.1 == slot) || !(Liveness.interfere (L p.2) (L i))

/-- Bounded upward scan for the first slot accepted by `ok`, modelling
    the `while (true) { ++slot; ... }` searches.  The fuel is chosen so
    that an accepting slot is always within range (one past the largest
    recorded slot is always free). -/
def findFrom (ok : Nat → Bool) : Nat → Nat → Nat
  | 0, s => s
  | fuel + 1, s => if ok s then s else findFrom ok fuel (s + 1)

/-- Largest slot number recorded in `reverseAlloc`. -/
def maxRevSlot (rev : List (Nat × Value)) : Nat :=
  rev.foldl (fun m p => max m p.1) 0

/-- A phi as the allocator sees it: the phi Value and its input Values
    in argument order (`p->eachArg`). -/
structure PhiNode where
  res : Value
  inputs : List Value
deriving DecidableEq

/-- Availability of a slot for the phi and simultaneously for all of its
    inputs: the `success` flag of the precoloring loop. -/
def phiOk (L : Value → Liveness) (st : AState) (p : PhiNode) (slot : Nat) : Bool :=
  slotIsAvailable L st slot p.res && p.inputs.all (slotIsAvailable L st slot)

/-- Slot chosen by the phi precoloring loop: starting at 1, the first
    slot free for the phi together with all of its inputs. -/
def phiFindSlot (L : Value → Liveness) (st : AState) (p : PhiNode) : Nat :=
  findFrom (phiOk L st p) (maxRevSlot st.rev + 1) 1

/-- Record an assignment in both maps: `allocation[v] = slot;
    reverseAlloc[slot].insert(v)`. -/
def AState.assign (st : AState) (v : Value) (slot : Nat) : AState :=
  ⟨st.alloc.set v (Slot.loc slot), (slot, v) :: st.rev⟩

/-- Precoloring step for one phi (the `// Precolor Phi` visitor body):
    a not-yet-assigned phi is assigned the first slot free for the whole
    group, and all of its inputs are assigned the same slot. -/
def precolorPhi (L : Value → Liveness) (st : AState) (p : PhiNode) : AState :=
  if (st.alloc.find p.res).isSome then st
  else
    let slot := phiFindSlot L st p
    p.inputs.foldl (fun st2 v => st2.assign v slot) (st.assign p.res slot)

def precolorPhis (L : Value → Liveness) (st : AState) (ps : List PhiNode) : AState :=
  ps.foldl (precolorPhi L) st

/-- What the eager coloring phase reads off one instruction: its Value,
    whether `livenessInterval` has a record for it, and its first
    argument when that argument is an Instruction (the source of the
    slot-reuse hint). -/
structure DInstr where
  val : Value
  hasLiveness : Bool
  hintArg : Option Value

/-- `findFreeSlot` of `computeAllocation`: scan slots 1, 2, ... and take
    the first available one. -/
def findFreeSlot (L : Value → Liveness) (st : AState) (i : Value) : Nat :=
  findFrom (fun s => slotIsAvailable L st s i) (maxRevSlot st.rev + 1) 1

/-- Body of the dominance-preorder eager coloring loop: an unassigned
    Value with a liveness record receives its first argument's slot when
    that is a usable numbered slot, otherwise the first free slot. -/
def colorOne (L : Value → Liveness) (st : AState) (i : DInstr) : AState :=
  if (st.alloc.find i.val).isSome || !i.hasLiveness then st
  else
    match i.hintArg.bind st.alloc.find with
    | some (Slot.loc h) =>
      if decide (h ≠ 0) && slotIsAvailable L st h i.val then st.assign i.val h
      else st.assign i.val (findFreeSlot L st i.val)
    | _ => st.assign i.val (findFreeSlot L st i.val)

/-- `SSAAllocator::computeAllocation`: phi precoloring, then eager
    coloring over the dominance-preorder instruction sequence.  The
    initial state carries the stack precoloring in `alloc` and an empty
    `reverseAlloc`. -/
def computeAllocation (L : Value → Liveness) (st0 : AState)
    (phis : List PhiNode) (dom : List DInstr) : AState :=
  dom.foldl (colorOne L) (precolorPhis L st0 phis)

/-- Slot safety: no two distinct Values placed in the same numbered slot
    have interfering liveness intervals. -/
def NoConflict (L : Value → Liveness) (a : Alloc) : Prop :=
  ∀ v w s, a.find v = some (Slot.loc s) → a.find w = some (Slot.loc s) →
    v ≠ w → Liveness.interfere (L v) (L w) = false

/-- The `reverseAlloc` map covers the numbered allocation: every Value
    currently in a numbered slot was recorded under that slot. -/
def RevCovers (st : AState) : Prop :=
  ∀ v s, st.alloc.find v = some (Slot.loc s) → (s, v) ∈ st.rev

theorem BBLiveness.conflict_comm (a b : BBLiveness) :
    BBLiveness.conflict a b = BBLiveness.conflict b a := by
  rw [Bool.eq_iff_iff]
  simp only [conflict, Bool.and_eq_true, Bool.or_eq_true, beq_iff_eq, decide_eq_true_eq]
  constructor <;> rintro ⟨⟨h1, h2⟩, h3⟩ <;> exact ⟨⟨h2, h1⟩, by omega⟩

theorem interfere_symm : ∀ (a b : Liveness),
    Liveness.interfere a b = Liveness.interfere b a
  | [], [] => rfl
  | [], _ :: _ => rfl
  | _ :: _, [] => rfl
  | x :: a, y :: b => by
    show ((x, y) :: List.zip a b).any _ = ((y, x) :: List.zip b a).any _
    simp only [List.any_cons]
    rw [show BBLiveness.conflict (x, y).1 (x, y).2 = BBLiveness.conflict (y, x).1 (y, x).2
      from BBLiveness.conflict_comm x y]
    rw [show (List.zip a b).any (fun p => BBLiveness.conflict p.1 p.2) =
      (List.zip b a).any (fun p => BBLiveness.conflict p.1 p.2) from interfere_symm a b]

theorem findFrom_le (ok : Nat → Bool) : ∀ (fuel s : Nat), s ≤ findFrom ok fuel s
  | 0, s => le_refl s
  | fuel + 1, s => by
    rw [findFrom]
    split
    · exact le_refl s
    · exact le_trans (Nat.le_succ s) (findFrom_le ok fuel (s + 1))

theorem findFrom_min (ok : Nat → Bool) :
    ∀ (fuel s t : Nat), s ≤ t → t < findFrom ok fuel s → ok t = false
  | 0, s, t, hst, hlt => by rw [findFrom] at hlt; omega
  | fuel + 1, s, t, hst, hlt => by
    rw [findFrom] at hlt
    by_cases h : ok s = true
    · rw [if_pos h] at hlt; omega
    · rw [if_neg h] at hlt
      rcases Nat.eq_or_lt_of_le hst with rfl | h2
      · exact Bool.eq_false_iff.mpr h
      · exact findFrom_min ok fuel (s + 1) t h2 hlt

theorem findFrom_hit (ok : Nat → Bool) :
    ∀ (fuel s k : Nat), k < fuel → ok (s + k) = true → ok (findFrom ok fuel s) = true
  | 0, _, k, hk, _ => absurd hk (Nat.not_lt_zero k)
  | fuel + 1, s, k, hk, hok => by
    rw [findFrom]
    by_cases h : ok s = true
    · rw [if_pos h]; exact h
    · rw [if_neg h]
      cases k with
      | zero => exact absurd hok h
      | succ k2 =>
        refine findFrom_hit ok fuel (s + 1) k2 (by omega) ?_
        have he : s + 1 + k2 = s + (k2 + 1) := by omega
        rw [he]; exact hok

theorem foldl_max_init_le : ∀ (l : List (Nat × Value)) (a : Nat),
    a ≤ l.foldl (fun m p => max m p.1) a
  | [], a => le_refl a
  | x :: l, a => le_trans (le_max_left a x.1) (foldl_max_init_le l (max a x.1))

theorem foldl_max_mem_le : ∀ (l : List (Nat × Value)) (a : Nat) (p : Nat × Value),
    p ∈ l → p.1 ≤ l.foldl (fun m q => max m q.1) a
  | x :: l, a, p, hp => by
    rcases List.mem_cons.mp hp with rfl | h
    · exact le_trans (le_max_right a p.1) (foldl_max_init_le l _)
    · exact foldl_max_mem_le l _ p h

theorem slotIsAvailable_beyond (L : Value → Liveness) (st : AState) (i : Value) :
    slotIsAvailable L st (maxRevSlot st.rev + 1) i = true := by
  rw [slotIsAvailable, List.all_eq_true]
  intro p hp
  have h1 := foldl_max_mem_le st.rev 0 p hp
  have hne : p.1 ≠ maxRevSlot st.rev + 1 := by unfold maxRevSlot; omega
  simp [hne]

theorem phiOk_beyond (L : Value → Liveness) (st : AState) (p : PhiNode) :
    phiOk L st p (maxRevSlot st.rev + 1) = true := by
  rw [phiOk, Bool.and_eq_true, List.all_eq_true]
  exact ⟨slotIsAvailable_beyond L st p.res, fun v _ => slotIsAvailable_beyond L st v⟩

theorem phiFindSlot_pos (L : Value → Liveness) (st : AState) (p : PhiNode) :
    1 ≤ phiFindSlot L st p := findFrom_le _ _ 1

theorem phiFindSlot_ok (L : Value → Liveness) (st : AState) (p : PhiNode) :
    phiOk L st p (phiFindSlot L st p) = true := by
  exact findFrom_hit (phiOk L st p) (maxRevSlot st.rev + 1) 1 (maxRevSlot st.rev)
    (by omega) (by rw [Nat.add_comm]; exact phiOk_beyond L st p)

theorem phiFindSlot_min (L : Value → Liveness) (st : AState) (p : PhiNode) (t : Nat)
    (h1 : 1 ≤ t) (h2 : t < phiFindSlot L st p) : phiOk L st p t = false :=
  findFrom_min _ _ 1 t h1 h2

theorem findFreeSlot_pos (L : Value → Liveness) (st : AState) (i : Value) :
    1 ≤ findFreeSlot L st i := findFrom_le _ _ 1

theorem findFreeSlot_avail (L : Value → Liveness) (st : AState) (i : Value) :
    slotIsAvailable L st (findFreeSlot L st i) i = true := by
  exact findFrom_hit (fun s => slotIsAvailable L st s i) (maxRevSlot st.rev + 1) 1
    (maxRevSlot st.rev) (by omega)
    (by show slotIsAvailable L st (1 + maxRevSlot st.rev) i = true
        rw [Nat.add_comm]; exact slotIsAvailable_beyond L st i)

theorem Alloc.find_set_self (a : Alloc) (v : Value) (s : Slot) :
    (a.set v s).find v = some s := by simp [Alloc.set, Alloc.find]

theorem Alloc.find_set_ne (a : Alloc) (v w : Value) (s : Slot) (h : w ≠ v) :
    (a.set v s).find w = a.find w := by simp [Alloc.set, Alloc.find, h]

theorem AState.assign_find_self (st : AState) (v : Value) (slot : Nat) :
    (st.assign v slot).alloc.find v = some (Slot.loc slot) :=
  Alloc.find_set_self st.alloc v (Slot.loc slot)

theorem AState.assign_find_ne (st : AState) (v w : Value) (slot : Nat) (h : w ≠ v) :
    (st.assign v slot).alloc.find w = st.alloc.find w :=
  Alloc.find_set_ne st.alloc v w (Slot.loc slot) h

/-- If availability of slot s for value i was checked against a reverse
    map that records w under s, then w and i do not interfere. -/
theorem avail_no_interfere (L : Value → Liveness) (st : AState) (slot : Nat)
    (i w : Value) (hav : slotIsAvailable L st slot i = true)
    (hmem : (slot, w) ∈ st.rev) : Liveness.interfere (L w) (L i) = false := by
  rw [slotIsAvailable, List.all_eq_true] at hav
  have h2 := hav (slot, w) hmem
  simp only [Bool.or_eq_true] at h2
  rcases h2 with h3 | h3
  · simp at h3
  · simpa using h3

/-- Safety invariant carried through the assignment of one phi group to
    a common slot: slot safety, reverse-map coverage, and the fact that
    only group members were (re)assigned, all of them to `slot`. -/
def GroupInv (L : Value → Liveness) (stBase : AState) (slot : Nat)
    (grp : List Value) (st2 : AState) : Prop :=
  NoConflict L st2.alloc ∧ RevCovers st2 ∧
    ∀ v, st2.alloc.find v = stBase.alloc.find v ∨
      (v ∈ grp ∧ st2.alloc.find v = some (Slot.loc slot))

theorem groupAssign_step (L : Value → Liveness) (stBase : AState) (slot : Nat)
    (grp : List Value) (st2 : AState) (g : Value)
    (hg : g ∈ grp)
    (havail : ∀ x ∈ grp, slotIsAvailable L stBase slot x = true)
    (hgrp : ∀ x ∈ grp, ∀ y ∈ grp, x ≠ y → Liveness.interfere (L x) (L y) = false)
    (hrcB : RevCovers stBase)
    (hinv : GroupInv L stBase slot grp st2) :
    GroupInv L stBase slot grp (st2.assign g slot) := by
  obtain ⟨hnc, hrc, hext⟩ := hinv
  refine ⟨?_, ?_, ?_⟩
  · intro v w s hv hw hvw
    by_cases hvg : v = g
    · subst hvg
      by_cases hwg : w = v
      · exact absurd hwg.symm hvw
      · rw [AState.assign_find_self] at hv
        simp only [Option.some.injEq, Slot.loc.injEq] at hv
        rw [AState.assign_find_ne _ _ _ _ hwg] at hw
        rcases hext w with hcase | ⟨hwgrp, _⟩
        · rw [hcase] at hw
          rw [← hv] at hw
          have hmem := hrcB w slot hw
          rw [interfere_symm]
          exact avail_no_interfere L stBase slot v w (havail v hg) hmem
        · exact hgrp v hg w hwgrp hvw
    · by_cases hwg : w = g
      · subst hwg
        rw [AState.assign_find_self] at hw
        simp only [Option.some.injEq, Slot.loc.injEq] at hw
        rw [AState.assign_find_ne _ _ _ _ hvg] at hv
        rcases hext v with hcase | ⟨hvgrp, _⟩
        · rw [hcase] at hv
          rw [← hw] at hv
          have hmem := hrcB v slot hv
          exact avail_no_interfere L stBase slot w v (havail w hg) hmem
        · exact hgrp v hvgrp w hg hvw
      · rw [AState.assign_find_ne _ _ _ _ hvg] at hv
        rw [AState.assign_find_ne _ _ _ _ hwg] at hw
        exact hnc v w s hv hw hvw
  · intro v s hv
    by_cases hvg : v = g
    · subst hvg
      rw [AState.assign_find_self] at hv
      simp only [Option.some.injEq, Slot.loc.injEq] at hv
      rw [hv]
      exact List.mem_cons_self _ _
    · rw [AState.assign_find_ne _ _ _ _ hvg] at hv
      exact List.mem_cons_of_mem _ (hrc v s hv)
  · intro v
    by_cases hvg : v = g
    · subst hvg
      exact Or.inr ⟨hg, AState.assign_find_self st2 v slot⟩
    · rw [AState.assign_find_ne _ _ _ _ hvg]
      exact hext v

theorem groupAssign_fold (L : Value → Liveness) (stBase : AState) (slot : Nat)
    (grp : List Value)
    (havail : ∀ x ∈ grp, slotIsAvailable L stBase slot x = true)
    (hgrp : ∀ x ∈ grp, ∀ y ∈ grp, x ≠ y → Liveness.interfere (L x) (L y) = false)
    (hrcB : RevCovers stBase) :
    ∀ (todo : List Value) (st2 : AState), (∀ x ∈ todo, x ∈ grp) →
      GroupInv L stBase slot grp st2 →
      GroupInv L stBase slot grp
        (todo.foldl (fun st3 v => st3.assign v slot) st2)
  | [], _, _, hinv => hinv
  | x :: todo, st2, hsub, hinv =>
    groupAssign_fold L stBase slot grp havail hgrp hrcB todo (st2.assign x slot)
      (fun y hy => hsub y (List.mem_cons_of_mem _ hy))
      (groupAssign_step L stBase slot grp st2 x (hsub x (List.mem_cons_self _ _))
        havail hgrp hrcB hinv)

theorem precolorPhi_preserves (L : Value → Liveness) (st : AState) (p : PhiNode)
    (hgrp : ∀ x ∈ p.res :: p.inputs, ∀ y ∈ p.res :: p.inputs,
      x ≠ y → Liveness.interfere (L x) (L y) = false)
    (hnc : NoConflict L st.alloc) (hrc : RevCovers st) :
    NoConflict L (precolorPhi L st p).alloc ∧ RevCovers (precolorPhi L st p) := by
  rw [precolorPhi]
  split
  · exact ⟨hnc, hrc⟩
  · have hok := phiFindSlot_ok L st p
    rw [phiOk, Bool.and_eq_true, List.all_eq_true] at hok
    have havail : ∀ x ∈ p.res :: p.inputs,
        slotIsAvailable L st (phiFindSlot L st p) x = true := by
      intro x hx
      rcases List.mem_cons.mp hx with rfl | h
      · exact hok.1
      · exact hok.2 x h
    have hinv0 : GroupInv L st (phiFindSlot L st p) (p.res :: p.inputs)
        (st.assign p.res (phiFindSlot L st p)) :=
      groupAssign_step L st _ _ st p.res (List.mem_cons_self _ _) havail hgrp hrc
        ⟨hnc, hrc, fun _ => Or.inl rfl⟩
    have hend := groupAssign_fold L st (phiFindSlot L st p) (p.res :: p.inputs)
      havail hgrp hrc p.inputs _ (fun x hx => List.mem_cons_of_mem _ hx) hinv0
    exact ⟨hend.1, hend.2.1⟩

theorem precolorPhis_preserves (L : Value → Liveness) :
    ∀ (ps : List PhiNode) (st : AState),
      (∀ p ∈ ps, ∀ x ∈ p.res :: p.inputs, ∀ y ∈ p.res :: p.inputs,
        x ≠ y → Liveness.interfere (L x) (L y) = false) →
      NoConflict L st.alloc → RevCovers st →
      NoConflict L (precolorPhis L st ps).alloc ∧ RevCovers (precolorPhis L st ps)
  | [], _, _, hnc, hrc => ⟨hnc, hrc⟩
  | p :: ps, st, hgrps, hnc, hrc => by
    have hstep := precolorPhi_preserves L st p (hgrps p (List.mem_cons_self _ _)) hnc hrc
    exact precolorPhis_preserves L ps (precolorPhi L st p)
      (fun q hq => hgrps q (List.mem_cons_of_mem _ hq)) hstep.1 hstep.2

theorem colorOne_preserves (L : Value → Liveness) (st : AState) (i : DInstr)
    (hnc : NoConflict L st.alloc) (hrc : RevCovers st) :
    NoConflict L (colorOne L st i).alloc ∧ RevCovers (colorOne L st i) := by
  rw [colorOne]
  split
  · exact ⟨hnc, hrc⟩
  · split
    · rename_i h hm
      split
      · rename_i hcond
        rw [Bool.and_eq_true] at hcond
        have hstep := groupAssign_step L st _ [i.val] st i.val (List.mem_cons_self _ _)
          (by intro x hx
              rcases List.mem_cons.mp hx with rfl | hx2
              · exact hcond.2
              · exact absurd hx2 (List.not_mem_nil x))
          (by intro x hx y hy hxy
              rcases List.mem_cons.mp hx with rfl | hx2
              · rcases List.mem_cons.mp hy with rfl | hy2
                · exact absurd rfl hxy
                · exact absurd hy2 (List.not_mem_nil y)
              · exact absurd hx2 (List.not_mem_nil x))
          hrc ⟨hnc, hrc, fun _ => Or.inl rfl⟩
        exact ⟨hstep.1, hstep.2.1⟩
      · have hstep := groupAssign_step L st _ [i.val] st i.val (List.mem_cons_self _ _)
          (by intro x hx
              rcases List.mem_cons.mp hx with rfl | hx2
              · exact findFreeSlot_avail L st i.val
              · exact absurd hx2 (List.not_mem_nil x))
          (by intro x hx y hy hxy
              rcases List.mem_cons.mp hx with rfl | hx2
              · rcases List.mem_cons.mp hy with rfl | hy2
                · exact absurd rfl hxy
                · exact absurd hy2 (List.not_mem_nil y)
              · exact absurd hx2 (List.not_mem_nil x))
          hrc ⟨hnc, hrc, fun _ => Or.inl rfl⟩
        exact ⟨hstep.1, hstep.2.1⟩
    · have hstep := groupAssign_step L st _ [i.val] st i.val (List.mem_cons_self _ _)
        (by intro x hx
            rcases List.mem_cons.mp hx with rfl | hx2
            · exact findFreeSlot_avail L st i.val
            · exact absurd hx2 (List.not_mem_nil x))
        (by intro x hx y hy hxy
            rcases List.mem_cons.mp hx with rfl | hx2
            · rcases List.mem_cons.mp hy with rfl | hy2
              · exact absurd rfl hxy
              · exact absurd hy2 (List.not_mem_nil y)
            · exact absurd hx2 (List.not_mem_nil x))
        hrc ⟨hnc, hrc, fun _ => Or.inl rfl⟩
      exact ⟨hstep.1, hstep.2.1⟩

theorem colorFold_preserves (L : Value → Liveness) :
    ∀ (dom : List DInstr) (st : AState),
      NoConflict L st.alloc → RevCovers st →
      NoConflict L (dom.foldl (colorOne L) st).alloc ∧
        RevCovers (dom.foldl (colorOne L) st)
  | [], _, hnc, hrc => ⟨hnc, hrc⟩
  | i :: dom, st, hnc, hrc => by
    have hstep := colorOne_preserves L st i hnc hrc
    exact colorFold_preserves L dom (colorOne L st i) hstep.1 hstep.2

/-- C1: `computeAllocation` only places a Value into a numbered slot after
    checking, through `slotIsAvailable`, that no Value already recorded for
    that slot interferes with it; hence over lowered (CSSA) Code, where a
    phi and its inputs pairwise do not interfere, any two distinct Values
    that end up in the same numbered (non-stack) slot have liveness
    intervals that do not interfere.  The initial state is the stack
    precoloring result: it assigns no numbered slots (so it trivially
    satisfies slot safety and reverse-map coverage). -/
theorem computeAllocation_slot_safe (L : Value → Liveness) (st0 : AState)
    (phis : List PhiNode) (dom : List DInstr)
    (hnc0 : NoConflict L st0.alloc) (hrc0 : RevCovers st0)
    (hcssa : ∀ p ∈ phis, ∀ x ∈ p.res :: p.inputs, ∀ y ∈ p.res :: p.inputs,
      x ≠ y → Liveness.interfere (L x) (L y) = false) :
    NoConflict L (computeAllocation L st0 phis dom).alloc := by
  rw [computeAllocation]
  have hpre := precolorPhis_preserves L phis st0 hcssa hnc0 hrc0
  exact (colorFold_preserves L dom _ hpre.1 hpre.2).1

/-- Concrete liveness map for witnesses: three mutually non-interfering
    values 10, 11, 12 and a long-lived default. -/
def exL : Value → Liveness := fun v =>
  if v = 10 then [⟨true, 0, 1⟩]
  else if v = 11 then [⟨true, 2, 3⟩]
  else if v = 12 then [⟨true, 4, 5⟩]
  else [⟨true, 0, 9⟩]

def exPhis : List PhiNode := [⟨10, [11, 12]⟩]

def exDom : List DInstr := [⟨1, true, none⟩, ⟨2, true, some 1⟩]

/-- Witness for C1 at a concrete allocation problem. -/
theorem computeAllocation_slot_safe_witness :
    (∀ p ∈ exPhis, ∀ x ∈ p.res :: p.inputs, ∀ y ∈ p.res :: p.inputs,
      x ≠ y → Liveness.interfere (exL x) (exL y) = false) ∧
    NoConflict exL (computeAllocation exL ⟨[], []⟩ exPhis exDom).alloc :=
  ⟨by decide, computeAllocation_slot_safe exL ⟨[], []⟩ exPhis exDom
    (fun _ _ _ hv _ _ => by simp [Alloc.find] at hv)
    (fun _ _ hv => by simp [Alloc.find] at hv)
    (by decide)⟩

/-! ## Phi coalescing (C2) -/

/-- The phi check in `SSAAllocator::verify`: with `slot = allocation.at(phi)`,
    every input must satisfy `allocation[input] == slot`; a missing entry read
    through `operator[]` yields the unassigned sentinel, which differs from
    every assigned slot, and any mismatch is the `assert(false)` abort (so
    `false` means the verifier aborts). -/
def verifyPhiAlloc (a : Alloc) (p : PhiNode) : Bool :=
  match a.find p.res with
  | none => false
  | some slot => p.inputs.all fun v => a.find v == some slot

/-- Disjointness of the value groups of two phis; in CSSA each phi input
    is a fresh copy feeding exactly one phi, so distinct phis have
    disjoint groups. -/
def PhiDisj (p q : PhiNode) : Prop :=
  ∀ x ∈ p.res :: p.inputs, x ∉ q.res :: q.inputs

theorem foldAssign_find (slot : Nat) :
    ∀ (todo : List Value) (st2 : AState) (v : Value),
      (todo.foldl (fun st3 x => st3.assign x slot) st2).alloc.find v =
        if v ∈ todo then some (Slot.loc slot) else st2.alloc.find v
  | [], st2, v => by simp
  | x :: todo, st2, v => by
    rw [List.foldl_cons, foldAssign_find slot todo (st2.assign x slot) v]
    by_cases hv : v ∈ todo
    · simp [hv]
    · by_cases hvx : v = x
      · subst hvx
        simp [hv, AState.assign_find_self]
      · simp [hv, hvx, AState.assign_find_ne st2 x v slot hvx]

theorem precolorPhi_skip (L : Value → Liveness) (st : AState) (p : PhiNode)
    (h : (st.alloc.find p.res).isSome) : precolorPhi L st p = st := by
  rw [precolorPhi, if_pos h]

theorem precolorPhi_find_unassigned (L : Value → Liveness) (st : AState) (p : PhiNode)
    (h : st.alloc.find p.res = none) (v : Value) :
    (precolorPhi L st p).alloc.find v =
      if v ∈ p.inputs ∨ v = p.res then some (Slot.loc (phiFindSlot L st p))
      else st.alloc.find v := by
  rw [precolorPhi]
  rw [if_neg (by simp [h])]
  rw [foldAssign_find (phiFindSlot L st p) p.inputs (st.assign p.res (phiFindSlot L st p)) v]
  by_cases hv : v ∈ p.inputs
  · simp [hv]
  · by_cases hvr : v = p.res
    · subst hvr
      simp [hv, AState.assign_find_self]
    · simp [hv, hvr, AState.assign_find_ne st p.res v _ hvr]

theorem precolorPhi_find_other (L : Value → Liveness) (st : AState) (p : PhiNode)
    (v : Value) (hv : v ∉ p.inputs) (hr : v ≠ p.res) :
    (precolorPhi L st p).alloc.find v = st.alloc.find v := by
  cases hfind : st.alloc.find p.res with
  | none => rw [precolorPhi_find_unassigned L st p hfind v, if_neg (by tauto)]
  | some s => rw [precolorPhi_skip L st p (by rw [hfind]; rfl)]

theorem precolorPhis_find_other (L : Value → Liveness) :
    ∀ (ps : List PhiNode) (st : AState) (v : Value),
      (∀ q ∈ ps, v ∉ q.inputs ∧ v ≠ q.res) →
      (precolorPhis L st ps).alloc.find v = st.alloc.find v
  | [], _, _, _ => rfl
  | q :: ps, st, v, h => by
    have hq := h q (List.mem_cons_self _ _)
    rw [precolorPhis, List.foldl_cons]
    rw [show ps.foldl (precolorPhi L) (precolorPhi L st q) =
      precolorPhis L (precolorPhi L st q) ps from rfl]
    rw [precolorPhis_find_other L ps (precolorPhi L st q) v
      (fun r hr => h r (List.mem_cons_of_mem _ hr))]
    exact precolorPhi_find_other L st q v hq.1 hq.2

theorem colorOne_find_isSome (L : Value → Liveness) (st : AState) (i : DInstr)
    (v : Value) (h : (st.alloc.find v).isSome) :
    (colorOne L st i).alloc.find v = st.alloc.find v := by
  rw [colorOne]
  split
  · rfl
  · rename_i hcond
    have hnone : st.alloc.find i.val = none := by
      cases hh : st.alloc.find i.val with
      | none => rfl
      | some s => exact absurd (by simp [hh]) hcond
    have hne : v ≠ i.val := by
      intro he
      rw [he, hnone] at h
      exact Bool.noConfusion h
    split
    · split
      · exact AState.assign_find_ne st i.val v _ hne
      · exact AState.assign_find_ne st i.val v _ hne
    · exact AState.assign_find_ne st i.val v _ hne

theorem colorFold_find_isSome (L : Value → Liveness) :
    ∀ (dom : List DInstr) (st : AState) (v : Value),
      (st.alloc.find v).isSome →
      (dom.foldl (colorOne L) st).alloc.find v = st.alloc.find v
  | [], _, _, _ => rfl
  | i :: dom, st, v, h => by
    rw [List.foldl_cons,
      colorFold_find_isSome L dom (colorOne L st i) v
        (by rw [colorOne_find_isSome L st i v h]; exact h)]
    exact colorOne_find_isSome L st i v h

theorem verifyPhiAlloc_some (a : Alloc) (p : PhiNode) (sl : Slot)
    (h : a.find p.res = some sl) :
    verifyPhiAlloc a p = (p.inputs.all fun v => a.find v == some sl) := by
  unfold verifyPhiAlloc
  rw [h]

/-- C2: for every phi of the lowered code (under CSSA: pairwise disjoint
    phi groups; stack-precolored phis have stack-precolored inputs), the
    final allocation of the phi equals that of every input, and either the
    whole group carries the stack sentinel or the whole group carries the
    numbered slot chosen by the precoloring pass, which is the smallest
    slot `s ≥ 1` simultaneously free for the phi and all of its inputs at
    the phi's turn; moreover the verifier's phi check fails exactly when
    some input's allocation differs from the phi's. -/
theorem phi_alloc_coalesced (L : Value → Liveness) (st0 : AState)
    (phis : List PhiNode) (dom : List DInstr)
    (h0 : ∀ v, st0.alloc.find v = none ∨ st0.alloc.find v = some Slot.stack)
    (hstk : ∀ p ∈ phis, st0.alloc.find p.res = some Slot.stack →
      ∀ v ∈ p.inputs, st0.alloc.find v = some Slot.stack)
    (hdisj : List.Pairwise PhiDisj phis)
    (pre : List PhiNode) (p : PhiNode) (post : List PhiNode)
    (hsplit : phis = pre ++ p :: post) :
    (∀ v ∈ p.inputs, (computeAllocation L st0 phis dom).alloc.find v =
        (computeAllocation L st0 phis dom).alloc.find p.res) ∧
    verifyPhiAlloc (computeAllocation L st0 phis dom).alloc p = true ∧
    (∀ (a : Alloc) (sl : Slot), a.find p.res = some sl →
      (verifyPhiAlloc a p = false ↔ ∃ v ∈ p.inputs, a.find v ≠ some sl)) ∧
    ((∀ v ∈ p.res :: p.inputs,
        (computeAllocation L st0 phis dom).alloc.find v = some Slot.stack) ∨
      (1 ≤ phiFindSlot L (precolorPhis L st0 pre) p ∧
        phiOk L (precolorPhis L st0 pre) p
          (phiFindSlot L (precolorPhis L st0 pre) p) = true ∧
        (∀ t, 1 ≤ t → t < phiFindSlot L (precolorPhis L st0 pre) p →
          phiOk L (precolorPhis L st0 pre) p t = false) ∧
        (∀ v ∈ p.res :: p.inputs,
          (computeAllocation L st0 phis dom).alloc.find v =
            some (Slot.loc (phiFindSlot L (precolorPhis L st0 pre) p))))) := by
  subst hsplit
  rw [List.pairwise_append] at hdisj
  obtain ⟨_, hpw2, hcross⟩ := hdisj
  rw [List.pairwise_cons] at hpw2
  obtain ⟨hp_post, _⟩ := hpw2
  have hpreO : ∀ x ∈ p.res :: p.inputs, ∀ q ∈ pre, x ∉ q.inputs ∧ x ≠ q.res := by
    intro x hx q hq
    have hd := hcross q hq p (List.mem_cons_self _ _)
    constructor
    · intro hxin
      exact hd x (List.mem_cons_of_mem _ hxin) hx
    · intro hxr
      exact hd x (by rw [hxr]; exact List.mem_cons_self _ _) hx
  have hKeq : ∀ x ∈ p.res :: p.inputs,
      (precolorPhis L st0 pre).alloc.find x = st0.alloc.find x := by
    intro x hx
    exact precolorPhis_find_other L pre st0 x (fun q hq => hpreO x hx q hq)
  have hpostO : ∀ x ∈ p.res :: p.inputs, ∀ q ∈ post, x ∉ q.inputs ∧ x ≠ q.res := by
    intro x hx q hq
    have hd := hp_post q hq
    constructor
    · intro hxin
      exact hd x hx (List.mem_cons_of_mem _ hxin)
    · intro hxr
      exact hd x hx (by rw [hxr]; exact List.mem_cons_self _ _)
  have hfold : precolorPhis L st0 (pre ++ p :: post) =
      precolorPhis L (precolorPhi L (precolorPhis L st0 pre) p) post := by
    rw [precolorPhis, List.foldl_append, List.foldl_cons]
    rfl
  have hverify : ∀ (a : Alloc) (sl : Slot), a.find p.res = some sl →
      (verifyPhiAlloc a p = false ↔ ∃ v ∈ p.inputs, a.find v ≠ some sl) := by
    intro a sl hsl
    rw [verifyPhiAlloc_some a p sl hsl]
    constructor
    · intro hfalse
      by_contra hno
      push_neg at hno
      have hall : (p.inputs.all fun v => a.find v == some sl) = true := by
        rw [List.all_eq_true]
        intro v hv
        simp [hno v hv]
      rw [hall] at hfalse
      exact Bool.noConfusion hfalse
    · rintro ⟨v, hv, hne⟩
      cases hall : (p.inputs.all fun v => a.find v == some sl) with
      | false => rfl
      | true =>
        rw [List.all_eq_true] at hall
        have h3 := hall v hv
        simp only [beq_iff_eq] at h3
        exact absurd h3 hne
  rcases h0 p.res with hres | hres
  · -- the phi is unassigned after stack precoloring: precolored to a slot
    have hKnone : (precolorPhis L st0 pre).alloc.find p.res = none := by
      rw [hKeq p.res (List.mem_cons_self _ _)]
      exact hres
    have hgrpfind : ∀ x ∈ p.res :: p.inputs,
        (computeAllocation L st0 (pre ++ p :: post) dom).alloc.find x =
          some (Slot.loc (phiFindSlot L (precolorPhis L st0 pre) p)) := by
      intro x hx
      rw [computeAllocation, hfold]
      have h1 : (precolorPhi L (precolorPhis L st0 pre) p).alloc.find x =
          some (Slot.loc (phiFindSlot L (precolorPhis L st0 pre) p)) := by
        rw [precolorPhi_find_unassigned L _ p hKnone x]
        rw [if_pos (by rcases List.mem_cons.mp hx with rfl | hxx
                       · exact Or.inr rfl
                       · exact Or.inl hxx)]
      have h2 : (precolorPhis L (precolorPhi L (precolorPhis L st0 pre) p)
          post).alloc.find x =
          some (Slot.loc (phiFindSlot L (precolorPhis L st0 pre) p)) := by
        rw [precolorPhis_find_other L post _ x (fun q hq => hpostO x hx q hq)]
        exact h1
      rw [colorFold_find_isSome L dom _ x (by rw [h2]; rfl)]
      exact h2
    refine ⟨?_, ?_, hverify, Or.inr ⟨phiFindSlot_pos L (precolorPhis L st0 pre) p,
      phiFindSlot_ok L (precolorPhis L st0 pre) p,
      fun t ht1 ht2 => phiFindSlot_min L (precolorPhis L st0 pre) p t ht1 ht2,
      hgrpfind⟩⟩
    · intro v hv
      rw [hgrpfind v (List.mem_cons_of_mem _ hv),
        hgrpfind p.res (List.mem_cons_self _ _)]
    · rw [verifyPhiAlloc_some _ p _ (hgrpfind p.res (List.mem_cons_self _ _))]
      rw [List.all_eq_true]
      intro v hv
      rw [hgrpfind v (List.mem_cons_of_mem _ hv)]
      simp
  · -- the phi was stack precolored, together with all of its inputs
    have hgrpfind : ∀ x ∈ p.res :: p.inputs,
        (computeAllocation L st0 (pre ++ p :: post) dom).alloc.find x =
          some Slot.stack := by
      intro x hx
      have hst0 : st0.alloc.find x = some Slot.stack := by
        rcases List.mem_cons.mp hx with rfl | hxx
        · exact hres
        · exact hstk p (List.mem_append.mpr (Or.inr (List.mem_cons_self _ _)))
            hres x hxx
      rw [computeAllocation, hfold]
      have hK : (precolorPhis L st0 pre).alloc.find x = some Slot.stack := by
        rw [hKeq x hx]
        exact hst0
      have h1 : (precolorPhi L (precolorPhis L st0 pre) p).alloc.find x =
          some Slot.stack := by
        rw [precolorPhi_skip L _ p
          (by rw [hKeq p.res (List.mem_cons_self _ _), hres]; rfl)]
        exact hK
      have h2 : (precolorPhis L (precolorPhi L (precolorPhis L st0 pre) p)
          post).alloc.find x = some Slot.stack := by
        rw [precolorPhis_find_other L post _ x (fun q hq => hpostO x hx q hq)]
        exact h1
      rw [colorFold_find_isSome L dom _ x (by rw [h2]; rfl)]
      exact h2
    refine ⟨?_, ?_, hverify, Or.inl hgrpfind⟩
    · intro v hv
      rw [hgrpfind v (List.mem_cons_of_mem _ hv),
        hgrpfind p.res (List.mem_cons_self _ _)]
    · rw [verifyPhiAlloc_some _ p _ (hgrpfind p.res (List.mem_cons_self _ _))]
      rw [List.all_eq_true]
      intro v hv
      rw [hgrpfind v (List.mem_cons_of_mem _ hv)]
      simp

instance : DecidableRel PhiDisj := fun p q => by
  unfold PhiDisj
  exact List.decidableBAll _ _

/-- Witness for C2: a two-phi precoloring problem starting from an empty
    stack precoloring. -/
theorem phi_alloc_coalesced_witness :
    ((∀ v, Alloc.find [] v = none ∨ Alloc.find [] v = some Slot.stack) ∧
      (∀ p ∈ [PhiNode.mk 10 [11, 12], PhiNode.mk 20 [21]],
        Alloc.find [] p.res = some Slot.stack →
        ∀ v ∈ p.inputs, Alloc.find [] v = some Slot.stack) ∧
      List.Pairwise PhiDisj [PhiNode.mk 10 [11, 12], PhiNode.mk 20 [21]] ∧
      [PhiNode.mk 10 [11, 12], PhiNode.mk 20 [21]] =
        [] ++ PhiNode.mk 10 [11, 12] :: [PhiNode.mk 20 [21]]) ∧
    (∀ v ∈ (PhiNode.mk 10 [11, 12]).inputs,
      (computeAllocation exL (AState.mk [] [])
        [PhiNode.mk 10 [11, 12], PhiNode.mk 20 [21]] exDom).alloc.find v =
      (computeAllocation exL (AState.mk [] [])
        [PhiNode.mk 10 [11, 12], PhiNode.mk 20 [21]] exDom).alloc.find
          (PhiNode.mk 10 [11, 12]).res) :=
  have hbase := phi_alloc_coalesced exL (AState.mk [] [])
    [PhiNode.mk 10 [11, 12], PhiNode.mk 20 [21]] exDom
    (fun _ => Or.inl rfl) (by decide) (by decide)
    [] (PhiNode.mk 10 [11, 12]) [PhiNode.mk 20 [21]] rfl
  ⟨⟨fun _ => Or.inl rfl, by decide, by decide, rfl⟩, hbase.1⟩

/-! ## Stack precoloring, phi-at-entry rule (C4)

`SSAAllocator::computeStackAllocation`, first part: walking the leading
phis of a block at positions `pos = 1, 2, ...`, a phi whose every input
comes from a fallthrough (`next0`) predecessor and sits `pos`
instructions from that predecessor's end is assigned the stack sentinel
together with all of its inputs; the first failure stops the sweep. -/

/-- An instruction as this pass sees it: its Value and, when it is a
    phi, the (predecessor id, incoming value) pairs. -/
structure PInstr where
  val : Value
  phiArgs : Option (List (Nat × Value))
deriving DecidableEq

def PInstr.dflt : PInstr := ⟨0, none⟩

/-- A basic block: id, instructions, and the two successor edges. -/
structure PBB where
  id : Nat
  instrs : List PInstr
  next0 : Option Nat
  next1 : Option Nat

/-- The per-phi test (`argsInRightOrder`): every incoming pair must have
    `in->next0 == bb`, `in->size() >= pos` and `*(in->end() - pos) == v`. -/
def phiEntryCheck (bbs : Nat → PBB) (bbId : Nat) (pos : Nat)
    (args : List (Nat × Value)) : Bool :=
  args.all fun pr =>
    ((bbs pr.1).next0 == some bbId) &&
      (decide (pos ≤ (bbs pr.1).instrs.length)) &&
      (((bbs pr.1).instrs.getD ((bbs pr.1).instrs.length - pos) PInstr.dflt).val
        == pr.2)

/-- The sweep over the block's leading phis: on success assign all
    inputs and the phi itself to the stack sentinel and continue at
    `pos + 1`; stop at the first non-phi or failing phi. -/
def phiEntryGo (bbs : Nat → PBB) (bbId : Nat) :
    Alloc → List PInstr → Nat → Alloc
  | a, [], _ => a
  | a, i :: rest, pos =>
    match i.phiArgs with
    | none => a
    | some args =>
      if phiEntryCheck bbs bbId pos args then
        phiEntryGo bbs bbId
          ((args.foldl (fun a2 pr => a2.set pr.2 Slot.stack) a).set i.val
            Slot.stack)
          rest (pos + 1)
      else a

def phiEntrySweep (bbs : Nat → PBB) (bb : PBB) (a : Alloc) : Alloc :=
  phiEntryGo bbs bb.id a bb.instrs 1

/-- Position `m` (0-based) of the instruction list holds a phi passing
    the check for stack position `pos + m`. -/
def passesFrom (bbs : Nat → PBB) (bbId : Nat) (instrs : List PInstr)
    (pos m : Nat) : Prop :=
  ∃ args, (instrs.getD m PInstr.dflt).phiArgs = some args ∧
    m < instrs.length ∧ phiEntryCheck bbs bbId (pos + m) args = true

/-- Value `v` belongs to the group (phi or phi input) of some leading
    phi all of whose predecessors pass the check, with every earlier
    position passing as well. -/
def inStackFrom (bbs : Nat → PBB) (bbId : Nat) (instrs : List PInstr)
    (pos : Nat) (v : Value) : Prop :=
  ∃ j args, (instrs.getD j PInstr.dflt).phiArgs = some args ∧
    j < instrs.length ∧ (∀ m, m ≤ j → passesFrom bbs bbId instrs pos m) ∧
    (v = (instrs.getD j PInstr.dflt).val ∨ v ∈ args.map Prod.snd)

theorem foldSetPair_find :
    ∀ (todo : List (Nat × Value)) (a : Alloc) (v : Value),
      (todo.foldl (fun a2 pr => a2.set pr.2 Slot.stack) a).find v =
        if v ∈ todo.map Prod.snd then some Slot.stack else a.find v
  | [], a, v => by simp
  | x :: todo, a, v => by
    rw [List.foldl_cons, foldSetPair_find todo (a.set x.2 Slot.stack) v]
    by_cases hv : v ∈ todo.map Prod.snd
    · simp [hv]
    · by_cases hvx : v = x.2
      · subst hvx
        simp [hv, Alloc.find_set_self]
      · simp [hv, hvx, Alloc.find_set_ne a x.2 v _ hvx]

theorem phiEntryGo_spec (bbs : Nat → PBB) (bbId : Nat) :
    ∀ (instrs : List PInstr) (pos : Nat) (a : Alloc) (v : Value),
      (inStackFrom bbs bbId instrs pos v →
        (phiEntryGo bbs bbId a instrs pos).find v = some Slot.stack) ∧
      (¬ inStackFrom bbs bbId instrs pos v →
        (phiEntryGo bbs bbId a instrs pos).find v = a.find v)
  | [], pos, a, v => by
    constructor
    · rintro ⟨j, args, _, hlt, _, _⟩
      exact absurd hlt (by simp)
    · intro _
      rfl
  | i :: rest, pos, a, v => by
    cases hphi : i.phiArgs with
    | none =>
      simp only [phiEntryGo, hphi]
      constructor
      · rintro ⟨j, args, hphi2, hlt2, hall2, hv2⟩
        obtain ⟨args0, hp0, _, _⟩ := hall2 0 (Nat.zero_le j)
        rw [List.getD_cons_zero, hphi] at hp0
        exact Option.noConfusion hp0
      · intro _
        trivial
    | some args =>
      cases hchk : phiEntryCheck bbs bbId pos args with
      | false =>
        simp only [phiEntryGo, hphi, hchk, Bool.false_eq_true, if_false]
        constructor
        · rintro ⟨j, args2, hphi2, hlt2, hall2, hv2⟩
          obtain ⟨args0, hp0, _, hc0⟩ := hall2 0 (Nat.zero_le j)
          rw [List.getD_cons_zero, hphi] at hp0
          injection hp0 with he
          subst he
          rw [Nat.add_zero] at hc0
          rw [hchk] at hc0
          exact Bool.noConfusion hc0
        · intro _
          trivial
      | true =>
        have IH := phiEntryGo_spec bbs bbId rest (pos + 1)
          ((args.foldl (fun a2 pr => a2.set pr.2 Slot.stack) a).set i.val
            Slot.stack) v
        simp only [phiEntryGo, hphi, hchk, if_true]
        constructor
        · rintro ⟨j, args2, hphi2, hlt2, hall2, hv2⟩
          cases j with
          | zero =>
            rw [List.getD_cons_zero] at hphi2 hv2
            rw [hphi] at hphi2
            injection hphi2 with he
            subst he
            by_cases hrest : inStackFrom bbs bbId rest (pos + 1) v
            · exact IH.1 hrest
            · rw [IH.2 hrest]
              by_cases hvi : v = i.val
              · rw [hvi]
                exact Alloc.find_set_self _ _ _
              · rcases hv2 with rfl | hvm
                · exact absurd rfl hvi
                · rw [Alloc.find_set_ne _ _ _ _ hvi, foldSetPair_find,
                    if_pos hvm]
          | succ j2 =>
            apply IH.1
            refine ⟨j2, args2, ?_, ?_, ?_, ?_⟩
            · rw [List.getD_cons_succ] at hphi2
              exact hphi2
            · rw [List.length_cons] at hlt2
              omega
            · intro m hm
              obtain ⟨args3, hp3, hl3, hc3⟩ := hall2 (m + 1) (by omega)
              rw [List.getD_cons_succ] at hp3
              refine ⟨args3, hp3, by rw [List.length_cons] at hl3; omega, ?_⟩
              have he : pos + (m + 1) = (pos + 1) + m := by omega
              rw [he] at hc3
              exact hc3
            · rw [List.getD_cons_succ] at hv2
              exact hv2
        · intro h
          have hrest : ¬ inStackFrom bbs bbId rest (pos + 1) v := by
            intro hr
            apply h
            obtain ⟨j2, args2, hphi2, hlt2, hall2, hv2⟩ := hr
            refine ⟨j2 + 1, args2, ?_, ?_, ?_, ?_⟩
            · rw [List.getD_cons_succ]
              exact hphi2
            · rw [List.length_cons]
              omega
            · intro m hm
              cases m with
              | zero =>
                refine ⟨args, by rw [List.getD_cons_zero]; exact hphi,
                  by simp, ?_⟩
                rw [Nat.add_zero]
                exact hchk
              | succ m2 =>
                obtain ⟨args3, hp3, hl3, hc3⟩ := hall2 m2 (by omega)
                refine ⟨args3, by rw [List.getD_cons_succ]; exact hp3,
                  by rw [List.length_cons]; omega, ?_⟩
                have he : pos + (m2 + 1) = (pos + 1) + m2 := by omega
                rw [he]
                exact hc3
            · rw [List.getD_cons_succ]
              exact hv2
          have hnotgrp : ¬(v = i.val ∨ v ∈ args.map Prod.snd) := by
            intro hg
            apply h
            refine ⟨0, args, by rw [List.getD_cons_zero]; exact hphi,
              by simp, ?_, ?_⟩
            · intro m hm
              have hm0 : m = 0 := Nat.le_zero.mp hm
              subst hm0
              exact ⟨args, by rw [List.getD_cons_zero]; exact hphi, by simp,
                by rw [Nat.add_zero]; exact hchk⟩
            · rw [List.getD_cons_zero]
              exact hg
          rw [IH.2 hrest]
          push_neg at hnotgrp
          rw [Alloc.find_set_ne _ _ _ _ hnotgrp.1, foldSetPair_find,
            if_neg hnotgrp.2]

/-- C4: the phi-at-entry stack precoloring assigns a Value the STACK
    sentinel exactly when it is the phi (or one of its incoming values)
    of a leading phi at 0-based position j such that every position
    m ≤ j holds a phi all of whose incoming pairs come from a `next0`
    (fallthrough) predecessor with the value sitting m+1 instructions
    from that predecessor's end; every other Value keeps its previous
    allocation — in particular the first failing phi stops the sweep. -/
theorem phiEntry_stack_precolor (bbs : Nat → PBB) (bb : PBB) (a : Alloc)
    (v : Value) :
    (inStackFrom bbs bb.id bb.instrs 1 v →
      (phiEntrySweep bbs bb a).find v = some Slot.stack) ∧
    (¬ inStackFrom bbs bb.id bb.instrs 1 v →
      (phiEntrySweep bbs bb a).find v = a.find v) :=
  phiEntryGo_spec bbs bb.id bb.instrs 1 a v

/-- Fallthrough predecessor block used by the C4 witness. -/
def exPred : PBB := ⟨1, [⟨11, none⟩], some 2, none⟩

/-- Merge block with one passing leading phi, used by the C4 witness. -/
def exMerge : PBB := ⟨2, [⟨10, some [(1, 11)]⟩, ⟨98, none⟩], none, none⟩

def exBBs : Nat → PBB := fun n => if n = 1 then exPred else exMerge

/-- Witness for C4: the phi input 11 is assigned the stack sentinel. -/
theorem phiEntry_stack_precolor_witness :
    inStackFrom exBBs exMerge.id exMerge.instrs 1 11 ∧
    (phiEntrySweep exBBs exMerge []).find 11 = some Slot.stack :=
  have hin : inStackFrom exBBs exMerge.id exMerge.instrs 1 11 :=
    ⟨0, [(1, 11)], rfl, by decide,
      fun m hm => by
        have hm0 : m = 0 := Nat.le_zero.mp hm
        subst hm0
        exact ⟨[(1, 11)], rfl, by decide, by decide⟩,
      Or.inr (by decide)⟩
  ⟨hin, (phiEntry_stack_precolor exBBs exMerge [] 11).1 hin⟩

/-! ## Stack precoloring, in-block stack window (C7)

Second part of `SSAAllocator::computeStackAllocation`: a deque simulates
the stack while walking the block; `tryLoadingArgsFromStack` matches the
arguments against the deque from the top (in reverse argument order)
and, on full success, marks all arguments STACK and truncates the deque
below the deepest match; afterwards a single-use, non-void, non-phi,
still-unallocated result is pushed. -/

/-- What the in-block walk reads off one instruction. -/
structure WInstr where
  val : Value
  args : List Value
  isVoid : Bool
  isPhi : Bool
  singleUse : Bool

/-- The matching scan of `tryLoadingArgsFromStack`: `revArgs` is the
    argument list in reverse (the `eachArgRev` order), the deque is a
    list with its top (`rbegin`) first.  Mismatched entries are skipped;
    on success the entries strictly below the deepest match (the final
    `newStackSize`) are returned. -/
def matchFrom : List Value → List Value → Option (List Value)
  | [], rstk => some rstk
  | _ :: _, [] => none
  | a :: rest, t :: rstk2 =>
    if t = a then matchFrom rest rstk2 else matchFrom (a :: rest) rstk2

/-- `tryLoadingArgsFromStack`: bail out on zero arguments or a short
    deque; on a full match assign every argument the stack sentinel
    (walking `eachArgRev`) and resize the deque to the part below the
    deepest match. -/
def tryLoadingArgs (a : Alloc) (stk : List Value) (i : WInstr) :
    Alloc × List Value :=
  if i.args.length = 0 ∨ stk.length < i.args.length then (a, stk)
  else
    match matchFrom i.args.reverse stk with
    | none => (a, stk)
    | some below =>
      (i.args.reverse.foldl (fun a2 v => a2.set v Slot.stack) a, below)

/-- One iteration of the in-block walk: try the stack match, then push
    the instruction when it is still unallocated, has a non-void result,
    is not a phi and is used exactly once in the IR. -/
def stackWalkStep (a : Alloc) (stk : List Value) (i : WInstr) :
    Alloc × List Value :=
  let st2 := tryLoadingArgs a stk i
  if (st2.1.find i.val).isNone && !i.isVoid && !i.isPhi && i.singleUse then
    (st2.1, i.val :: st2.2)
  else st2

/-- The walk over a block's instructions, starting from an empty deque. -/
def stackWalkBlock (a : Alloc) (instrs : List WInstr) : Alloc × List Value :=
  instrs.foldl (fun st i => stackWalkStep st.1 st.2 i) (a, [])

theorem foldSetVal_find :
    ∀ (todo : List Value) (a : Alloc) (v : Value),
      (todo.foldl (fun a2 x => a2.set x Slot.stack) a).find v =
        if v ∈ todo then some Slot.stack else a.find v
  | [], a, v => by simp
  | x :: todo, a, v => by
    rw [List.foldl_cons, foldSetVal_find todo (a.set x Slot.stack) v]
    by_cases hv : v ∈ todo
    · simp [hv]
    · by_cases hvx : v = x
      · subst hvx
        simp [hv, Alloc.find_set_self]
      · simp [hv, hvx, Alloc.find_set_ne a x v _ hvx]

theorem matchFrom_spec :
    ∀ (ra rstk below : List Value), matchFrom ra rstk = some below →
      ∃ sc, rstk = sc ++ below ∧ List.Sublist ra sc ∧
        (ra ≠ [] → ∃ sc2 x, sc = sc2 ++ [x] ∧ ra.getLast? = some x)
  | [], rstk, below, h => by
    rw [matchFrom] at h
    injection h with he
    subst he
    exact ⟨[], rfl, List.nil_sublist [], fun hc => absurd rfl hc⟩
  | a :: rest, [], below, h => by
    rw [matchFrom] at h
    exact Option.noConfusion h
  | a :: rest, t :: rstk2, below, h => by
    rw [matchFrom] at h
    by_cases hta : t = a
    · rw [if_pos hta] at h
      obtain ⟨sc2, hsplit, hsub, hlast⟩ := matchFrom_spec rest rstk2 below h
      subst hta
      cases hrest : rest with
      | nil =>
        subst hrest
        rw [matchFrom] at h
        injection h with he
        subst he
        have hsc2 : sc2 = [] := by
          have hlen := congrArg List.length hsplit
          simp at hlen
          exact hlen
        subst hsc2
        refine ⟨[t], rfl, ?_, ?_⟩
        · exact List.Sublist.cons₂ t (List.nil_sublist [])
        · intro _
          exact ⟨[], t, rfl, rfl⟩
      | cons r rs =>
        subst hrest
        obtain ⟨sc3, x, hsc3, hx⟩ := hlast (by simp)
        refine ⟨t :: sc2, by rw [hsplit]; rfl, List.Sublist.cons₂ t hsub, ?_⟩
        intro _
        refine ⟨t :: sc3, x, by rw [hsc3, List.cons_append], ?_⟩
        rw [List.getLast?_cons_cons]
        exact hx
    · rw [if_neg hta] at h
      obtain ⟨sc2, hsplit, hsub, hlast⟩ := matchFrom_spec (a :: rest) rstk2 below h
      refine ⟨t :: sc2, by rw [hsplit]; rfl, List.Sublist.cons t hsub, ?_⟩
      intro hne
      obtain ⟨sc3, x, hsc3, hx⟩ := hlast hne
      exact ⟨t :: sc3, x, by rw [hsc3, List.cons_append], hx⟩

/-- C7: in the in-block stack window, (a) an instruction whose result is
    void, that is a phi, or that is not used exactly once in the IR is
    never pushed on the simulated deque (also an already-allocated one);
    (b) when every argument is matched on the deque scanning from the top
    in reverse argument order, each argument is assigned the STACK
    sentinel, the scanned-over mismatched entries are dropped, and the
    deque is truncated below the deepest match (the deepest scanned entry
    being the last-matched argument). -/
theorem stack_window_spec (a : Alloc) (stk : List Value) (i : WInstr) :
    ((i.isVoid = true ∨ i.isPhi = true ∨ i.singleUse = false ∨
        ((tryLoadingArgs a stk i).1.find i.val).isSome) →
      stackWalkStep a stk i = tryLoadingArgs a stk i) ∧
    (∀ below, 1 ≤ i.args.length → i.args.length ≤ stk.length →
      matchFrom i.args.reverse stk = some below →
      (tryLoadingArgs a stk i).2 = below ∧
      (∀ v ∈ i.args, (tryLoadingArgs a stk i).1.find v = some Slot.stack) ∧
      ∃ sc, stk = sc ++ below ∧ List.Sublist i.args.reverse sc ∧
        (∃ sc2 x, sc = sc2 ++ [x] ∧ i.args.reverse.getLast? = some x)) := by
  constructor
  · intro h
    rw [stackWalkStep]
    rcases h with h | h | h | h
    · rw [if_neg (by simp [h])]
    · rw [if_neg (by simp [h])]
    · rw [if_neg (by simp [h])]
    · cases hopt : (tryLoadingArgs a stk i).1.find i.val with
      | none =>
        rw [hopt] at h
        simp at h
      | some s =>
        rw [if_neg (by simp [hopt])]
  · intro below hlen1 hlen2 hmatch
    have hguard : ¬(i.args.length = 0 ∨ stk.length < i.args.length) := by
      rintro (hc | hc) <;> omega
    obtain ⟨sc, hsplit, hsub, hlast⟩ := matchFrom_spec i.args.reverse stk below hmatch
    refine ⟨?_, ?_, sc, hsplit, hsub, ?_⟩
    · rw [tryLoadingArgs, if_neg hguard, hmatch]
    · intro v hv
      rw [tryLoadingArgs, if_neg hguard, hmatch]
      show (i.args.reverse.foldl (fun a2 v => a2.set v Slot.stack) a).find v =
        some Slot.stack
      rw [foldSetVal_find, if_pos (List.mem_reverse.mpr hv)]
    · exact hlast (by
        intro hc
        have hl : i.args.reverse.length = 0 := by rw [hc]; rfl
        rw [List.length_reverse] at hl
        omega)

/-- Witness for C7: instruction 5 with args [1, 2] matched against the
    deque [2, 9, 1, 7] (top first): both args marked STACK, entry 9
    dropped, deque truncated to [7]. -/
theorem stack_window_spec_witness :
    (1 ≤ ([1, 2] : List Value).length ∧ ([1, 2] : List Value).length ≤
        ([2, 9, 1, 7] : List Value).length ∧
      matchFrom ([1, 2] : List Value).reverse [2, 9, 1, 7] = some [7]) ∧
    (tryLoadingArgs [] [2, 9, 1, 7] (WInstr.mk 5 [1, 2] false false true)).2 =
      [7] ∧
    (∀ v ∈ (WInstr.mk 5 [1, 2] false false true).args,
      (tryLoadingArgs [] [2, 9, 1, 7]
        (WInstr.mk 5 [1, 2] false false true)).1.find v = some Slot.stack) :=
  have hbase := (stack_window_spec [] [2, 9, 1, 7]
    (WInstr.mk 5 [1, 2] false false true)).2 [7] (by decide) (by decide)
    (by decide)
  ⟨⟨by decide, by decide, by decide⟩, hbase.1, hbase.2.1⟩

/-! ## The verifier (C3)

`SSAAllocator::verify` explores every `(from, to)` edge at most once,
symbolically executing each block over a register file and a stack; the
`assert(false)` aborts become error values. -/

/-- An instruction as the verifier reads it: for a phi, `args` are the
    incoming values; for other instructions, the arguments in order
    (`none` marks an argument that is not an Instruction, which the
    verifier skips). -/
structure VInstr where
  val : Value
  isPhi : Bool
  args : List (Option Value)

/-- A basic block for the verifier. -/
structure VBB where
  id : Nat
  instrs : List VInstr
  next0 : Option Nat
  next1 : Option Nat

/-- The verifier's register file, `std::unordered_map<size_t, Instruction*>`. -/
abbrev RegFile := List (Nat × Value)

def RegFile.get : RegFile → Nat → Option Value
  | [], _ => none
  | (t, v) :: r, s => if s = t then some v else RegFile.get r s

def RegFile.set (r : RegFile) (s : Nat) (v : Value) : RegFile := (s, v) :: r

/-- Verifier failures, one per `assert(false)` / `.at` throw site. -/
inductive VErr
  | phiUnallocated (phi : Value)
  | phiInputMismatch (phi : Value)
  | phiStackUnderflow (phi : Value)
  | needsUnallocated (instr : Value) (arg : Value)
  | stackUnderflow (instr : Value)
  | regUnset (instr : Value) (slot : Nat)
  | wrongValue (instr : Value) (expected : Value) (got : Value)
  | retNonEmpty (bbId : Nat) (residual : Nat)
  | missingBlock (bbId : Nat)
  | fuelOut
deriving DecidableEq

/-- The phi branch's input check: every instruction input must carry the
    same allocation as the phi (`allocation[i] != slot` aborts). -/
def phiArgsOk (a : Alloc) (slot : Slot) (args : List (Option Value)) : Bool :=
  args.all fun o =>
    match o with
    | none => true
    | some v => a.find v == some slot

/-- Checking one non-phi argument (the `eachArgRev` body): stack operands
    are popped and compared, register operands are read and compared. -/
def checkArg (a : Alloc) (instr : Value) (st : RegFile × List Value)
    (o : Option Value) : Except VErr (RegFile × List Value) :=
  match o with
  | none => Except.ok st
  | some v =>
    match a.find v with
    | none => Except.error (VErr.needsUnallocated instr v)
    | some Slot.stack =>
      match st.2 with
      | [] => Except.error (VErr.stackUnderflow instr)
      | given :: rest =>
        if given = v then Except.ok (st.1, rest)
        else Except.error (VErr.wrongValue instr v given)
    | some (Slot.loc s) =>
      match RegFile.get st.1 s with
      | none => Except.error (VErr.regUnset instr s)
      | some given =>
        if given = v then Except.ok st
        else Except.error (VErr.wrongValue instr v given)

/-- After the checks, an allocated instruction is recorded: pushed when
    stack-allocated, written to its register otherwise. -/
def writeResult (a : Alloc) (v : Value) (st : RegFile × List Value) :
    RegFile × List Value :=
  match a.find v with
  | some Slot.stack => (st.1, v :: st.2)
  | some (Slot.loc s) => (RegFile.set st.1 s v, st.2)
  | none => st

/-- Symbolic execution of one instruction of `verifyBB`. -/
def verifyInstr (a : Alloc) (st : RegFile × List Value) (i : VInstr) :
    Except VErr (RegFile × List Value) :=
  match i.isPhi with
  | true =>
    match a.find i.val with
    | none => Except.error (VErr.phiUnallocated i.val)
    | some slot =>
      if phiArgsOk a slot i.args then
        match slot with
        | Slot.stack =>
          match st.2 with
          | [] => Except.error (VErr.phiStackUnderflow i.val)
          | _ :: rest => Except.ok (writeResult a i.val (st.1, rest))
        | Slot.loc _ => Except.ok (writeResult a i.val st)
      else Except.error (VErr.phiInputMismatch i.val)
  | false =>
    match i.args.reverse.foldlM (fun st2 o => checkArg a i.val st2 o) st with
    | Except.error e => Except.error e
    | Except.ok st2 => Except.ok (writeResult a i.val st2)

/-- Symbolic execution of a whole block's instruction list. -/
def runBlockInstrs (a : Alloc) (instrs : List VInstr)
    (st : RegFile × List Value) : Except VErr (RegFile × List Value) :=
  instrs.foldlM (verifyInstr a) st

/-- `verifyBB`: run the block, abort when a block without successors ends
    with a non-empty stack (reporting its size), then explore each untaken
    successor edge, both successors starting from the same post-block
    state.  The fuel only bounds the recursion depth; the edge set makes
    the real traversal finite. -/
def verifyFrom (a : Alloc) (bbs : Nat → Option VBB) :
    Nat → List (Nat × Nat) → VBB → RegFile × List Value →
      Except VErr (List (Nat × Nat))
  | 0, _, _, _ => Except.error VErr.fuelOut
  | fuel + 1, taken, bb, st =>
    match runBlockInstrs a bb.instrs st with
    | Except.error e => Except.error e
    | Except.ok st2 =>
      if bb.next0 = none ∧ bb.next1 = none ∧ st2.2.length ≠ 0 then
        Except.error (VErr.retNonEmpty bb.id st2.2.length)
      else
        match
          match bb.next0 with
          | none => Except.ok taken
          | some n0 =>
            if (bb.id, n0) ∈ taken then Except.ok taken
            else
              match bbs n0 with
              | none => Except.error (VErr.missingBlock n0)
              | some b0 => verifyFrom a bbs fuel ((bb.id, n0) :: taken) b0 st2
        with
        | Except.error e => Except.error e
        | Except.ok taken2 =>
          match bb.next1 with
          | none => Except.ok taken2
          | some n1 =>
            if (bb.id, n1) ∈ taken2 then Except.ok taken2
            else
              match bbs n1 with
              | none => Except.error (VErr.missingBlock n1)
              | some b1 =>
                verifyFrom a bbs fuel ((bb.id, n1) :: taken2) b1 st2

/-- C3: when the verifier reaches a block with no successors, it returns
    normally if the symbolic stack is empty after the block's
    instructions, and aborts reporting the residual stack size
    otherwise. -/
theorem verify_terminal_stack (a : Alloc) (bbs : Nat → Option VBB)
    (fuel : Nat) (taken : List (Nat × Nat)) (bb : VBB)
    (st st2 : RegFile × List Value)
    (h0 : bb.next0 = none) (h1 : bb.next1 = none)
    (hrun : runBlockInstrs a bb.instrs st = Except.ok st2) :
    verifyFrom a bbs (fuel + 1) taken bb st =
      if st2.2.length ≠ 0 then
        Except.error (VErr.retNonEmpty bb.id st2.2.length)
      else Except.ok taken := by
  rw [verifyFrom, hrun, h0, h1]
  by_cases hlen : st2.2.length = 0
  · simp [hlen]
  · simp [hlen]

/-- Witness for C3: an empty terminal block entered with one value on
    the symbolic stack aborts with residual size 1. -/
theorem verify_terminal_stack_witness :
    ((VBB.mk 7 [] none none).next0 = none ∧
      (VBB.mk 7 [] none none).next1 = none ∧
      runBlockInstrs [] [] (([], [42]) : RegFile × List Value) =
        Except.ok (([], [42]) : RegFile × List Value)) ∧
    verifyFrom [] (fun _ => none) 1 [] (VBB.mk 7 [] none none)
      (([], [42]) : RegFile × List Value) =
      Except.error (VErr.retNonEmpty 7 1) :=
  ⟨⟨rfl, rfl, rfl⟩, by
    simpa using verify_terminal_stack [] (fun _ => none) 0 []
      (VBB.mk 7 [] none none) (([], [42]) : RegFile × List Value)
      (([], [42]) : RegFile × List Value) rfl rfl rfl⟩

/-! ## Liveness propagation (C8)

The merge part of `SSAAllocator::computeLiveness`: after a block has
been walked, the ordinary accumulator is merged into the live-out set of
every immediate predecessor, while each phi-input accumulator (keyed by
its input block) is merged only into predecessors `pre` with
`pre == inBB || cfg.isPredecessor(inBB, pre)`; a predecessor whose
live-out set grows (or that is seen for the first time) is re-enqueued.
`cfg.isPredecessor` lives in the CFG helper (not part of this
translation unit) and is taken as an oracle parameter. -/

/-- `liveAtEnd`: basic block id to live-out set, newest binding first. -/
abbrev LiveMap := List (Nat × Finset Value)

def LiveMap.get : LiveMap → Nat → Option (Finset Value)
  | [], _ => none
  | (k, s) :: m, q => if q = k then some s else LiveMap.get m q

def LiveMap.set (m : LiveMap) (k : Nat) (s : Finset Value) : LiveMap :=
  (k, s) :: m

theorem LiveMap.get_set_self (m : LiveMap) (k : Nat) (s : Finset Value) :
    (m.set k s).get k = some s := by simp [LiveMap.set, LiveMap.get]

theorem LiveMap.get_set_ne (m : LiveMap) (k q : Nat) (s : Finset Value)
    (h : q ≠ k) : (m.set k s).get q = m.get q := by
  simp [LiveMap.set, LiveMap.get, h]

/-- The `merge` lambda of `computeLiveness`: if the live-out set does not
    already include `live`, grow it and re-enqueue the block. -/
def mergeStep (st : LiveMap × Finset Nat) (bb : Nat) (live : Finset Value) :
    LiveMap × Finset Nat :=
  let liveOut := (st.1.get bb).getD ∅
  if ¬ live ⊆ liveOut then (st.1.set bb (liveOut ∪ live), insert bb st.2)
  else st

/-- The `mergePhiInp` lambda: each phi-input accumulator is merged into
    `bb` only when `bb` is the input block or is reachable from it. -/
def mergePhiInp (isPred : Nat → Nat → Bool)
    (accPhi : List (Nat × Finset Value)) (st : LiveMap × Finset Nat)
    (bb : Nat) : LiveMap × Finset Nat :=
  accPhi.foldl
    (fun st2 pr =>
      if bb = pr.1 ∨ isPred pr.1 bb = true then mergeStep st2 bb pr.2 else st2)
    st

/-- One iteration of the predecessor loop: a first-time predecessor has
    its live-out seeded with the accumulator, the phi inputs merged and
    is enqueued; otherwise both merges run on the existing entry. -/
def processPred (isPred : Nat → Nat → Bool)
    (accPhi : List (Nat × Finset Value)) (accumulated : Finset Value)
    (st : LiveMap × Finset Nat) (pre : Nat) : LiveMap × Finset Nat :=
  if (st.1.get pre).isNone then
    let st1 := mergePhiInp isPred accPhi (st.1.set pre accumulated, st.2) pre
    (st1.1, insert pre st1.2)
  else mergePhiInp isPred accPhi (mergeStep st pre accumulated) pre

/-- The whole predecessor loop over `cfg.immediatePredecessors(bb)`. -/
def propagate (isPred : Nat → Nat → Bool)
    (accPhi : List (Nat × Finset Value)) (accumulated : Finset Value)
    (preds : List Nat) (st : LiveMap × Finset Nat) : LiveMap × Finset Nat :=
  preds.foldl (processPred isPred accPhi accumulated) st

/-- The union of the phi-input accumulators that qualify for `bb`. -/
def phiMergeSet (isPred : Nat → Nat → Bool)
    (accPhi : List (Nat × Finset Value)) (bb : Nat) : Finset Value :=
  accPhi.foldl
    (fun acc pr =>
      if bb = pr.1 ∨ isPred pr.1 bb = true then acc ∪ pr.2 else acc)
    ∅

theorem mergeStep_get_self (st : LiveMap × Finset Nat) (bb : Nat)
    (live : Finset Value) :
    ((mergeStep st bb live).1.get bb).getD ∅ = (st.1.get bb).getD ∅ ∪ live := by
  rw [mergeStep]
  split
  · rw [LiveMap.get_set_self]
    rfl
  · rename_i h
    push_neg at h
    exact (Finset.union_eq_left.mpr h).symm

theorem mergeStep_get_ne (st : LiveMap × Finset Nat) (bb q : Nat)
    (live : Finset Value) (h : q ≠ bb) :
    (mergeStep st bb live).1.get q = st.1.get q := by
  rw [mergeStep]
  split
  · exact LiveMap.get_set_ne _ _ _ _ h
  · rfl

theorem mergeStep_todo (st : LiveMap × Finset Nat) (bb : Nat)
    (live : Finset Value) (x : Nat) :
    x ∈ (mergeStep st bb live).2 ↔
      x ∈ st.2 ∨ (x = bb ∧ ¬ live ⊆ (st.1.get bb).getD ∅) := by
  rw [mergeStep]
  split
  · rename_i h
    simp only [Finset.mem_insert]
    tauto
  · rename_i h
    push_neg at h
    constructor
    · exact fun hx => Or.inl hx
    · rintro (hx | ⟨_, hc⟩)
      · exact hx
      · exact absurd h hc

theorem union_subset_merge_iff (S T old : Finset Value) :
    (¬ S ⊆ old ∨ ¬ T ⊆ old ∪ S) ↔ ¬ (S ∪ T) ⊆ old := by
  constructor
  · rintro (h | h) hc
    · exact h (fun x hx => hc (Finset.mem_union_left _ hx))
    · exact h (fun x hx => Finset.mem_union_left _ (hc (Finset.mem_union_right _ hx)))
  · intro h
    by_cases hS : S ⊆ old
    · right
      intro hT
      apply h
      rw [Finset.union_subset_iff]
      refine ⟨hS, fun x hx => ?_⟩
      rcases Finset.mem_union.mp (hT hx) with h1 | h1
      · exact h1
      · exact hS h1
    · exact Or.inl hS

theorem phiMergeSet_acc (isPred : Nat → Nat → Bool) (bb : Nat) :
    ∀ (l : List (Nat × Finset Value)) (acc : Finset Value),
      l.foldl
        (fun a pr =>
          if bb = pr.1 ∨ isPred pr.1 bb = true then a ∪ pr.2 else a) acc =
        acc ∪ phiMergeSet isPred l bb
  | [], acc => by simp [phiMergeSet]
  | pr :: l, acc => by
    rw [phiMergeSet, List.foldl_cons, List.foldl_cons,
      phiMergeSet_acc isPred bb l, phiMergeSet_acc isPred bb l]
    split
    · simp [Finset.union_assoc]
    · simp

theorem mergePhiInp_spec (isPred : Nat → Nat → Bool) :
    ∀ (accPhi : List (Nat × Finset Value)) (st : LiveMap × Finset Nat)
      (bb : Nat),
      (((mergePhiInp isPred accPhi st bb).1.get bb).getD ∅ =
        (st.1.get bb).getD ∅ ∪ phiMergeSet isPred accPhi bb) ∧
      (∀ q, q ≠ bb →
        (mergePhiInp isPred accPhi st bb).1.get q = st.1.get q) ∧
      (∀ x, x ∈ (mergePhiInp isPred accPhi st bb).2 ↔
        x ∈ st.2 ∨
          (x = bb ∧ ¬ phiMergeSet isPred accPhi bb ⊆ (st.1.get bb).getD ∅))
  | [], st, bb => by
    refine ⟨by simp [mergePhiInp, phiMergeSet], fun q _ => rfl, fun x => ?_⟩
    simp [mergePhiInp, phiMergeSet]
  | pr :: accPhi, st, bb => by
    rw [mergePhiInp, List.foldl_cons]
    by_cases hc : bb = pr.1 ∨ isPred pr.1 bb = true
    · rw [if_pos hc]
      have IH := mergePhiInp_spec isPred accPhi (mergeStep st bb pr.2) bb
      have hset : phiMergeSet isPred (pr :: accPhi) bb =
          pr.2 ∪ phiMergeSet isPred accPhi bb := by
        rw [phiMergeSet, List.foldl_cons, if_pos hc, phiMergeSet_acc,
          Finset.empty_union]
      refine ⟨?_, ?_, ?_⟩
      · rw [show (mergePhiInp isPred accPhi (mergeStep st bb pr.2) bb) =
          accPhi.foldl (fun st2 pr2 =>
            if bb = pr2.1 ∨ isPred pr2.1 bb = true then mergeStep st2 bb pr2.2
            else st2) (mergeStep st bb pr.2) from rfl] at IH
        rw [IH.1, mergeStep_get_self, hset, Finset.union_assoc]
      · intro q hq
        rw [show (mergePhiInp isPred accPhi (mergeStep st bb pr.2) bb) =
          accPhi.foldl (fun st2 pr2 =>
            if bb = pr2.1 ∨ isPred pr2.1 bb = true then mergeStep st2 bb pr2.2
            else st2) (mergeStep st bb pr.2) from rfl] at IH
        rw [IH.2.1 q hq, mergeStep_get_ne st bb q pr.2 hq]
      · intro x
        rw [show (mergePhiInp isPred accPhi (mergeStep st bb pr.2) bb) =
          accPhi.foldl (fun st2 pr2 =>
            if bb = pr2.1 ∨ isPred pr2.1 bb = true then mergeStep st2 bb pr2.2
            else st2) (mergeStep st bb pr.2) from rfl] at IH
        rw [IH.2.2 x, mergeStep_todo, mergeStep_get_self, hset]
        have hkey := union_subset_merge_iff pr.2 (phiMergeSet isPred accPhi bb)
          ((st.1.get bb).getD ∅)
        tauto
    · rw [if_neg hc]
      have IH := mergePhiInp_spec isPred accPhi st bb
      have hset : phiMergeSet isPred (pr :: accPhi) bb =
          phiMergeSet isPred accPhi bb := by
        rw [phiMergeSet, List.foldl_cons, if_neg hc, phiMergeSet_acc,
          Finset.empty_union]
      rw [hset]
      exact IH

theorem processPred_spec (isPred : Nat → Nat → Bool)
    (accPhi : List (Nat × Finset Value)) (accumulated : Finset Value)
    (st : LiveMap × Finset Nat) (pre : Nat) :
    (((processPred isPred accPhi accumulated st pre).1.get pre).getD ∅ =
      (st.1.get pre).getD ∅ ∪ accumulated ∪ phiMergeSet isPred accPhi pre) ∧
    (∀ q, q ≠ pre →
      (processPred isPred accPhi accumulated st pre).1.get q = st.1.get q) ∧
    (∀ x, x ∈ (processPred isPred accPhi accumulated st pre).2 ↔
      x ∈ st.2 ∨
        (x = pre ∧ (st.1.get pre = none ∨
          ¬ (accumulated ∪ phiMergeSet isPred accPhi pre) ⊆
            (st.1.get pre).getD ∅))) := by
  rw [processPred]
  split
  · rename_i hnone
    rw [Option.isNone_iff_eq_none] at hnone
    have IH := mergePhiInp_spec isPred accPhi (st.1.set pre accumulated, st.2) pre
    refine ⟨?_, ?_, ?_⟩
    · show ((mergePhiInp isPred accPhi (st.1.set pre accumulated, st.2)
        pre).1.get pre).getD ∅ = _
      rw [IH.1]
      show ((st.1.set pre accumulated).get pre).getD ∅ ∪ _ = _
      rw [LiveMap.get_set_self, hnone]
      show accumulated ∪ _ = ∅ ∪ accumulated ∪ _
      rw [Finset.empty_union]
    · intro q hq
      show (mergePhiInp isPred accPhi (st.1.set pre accumulated, st.2)
        pre).1.get q = _
      rw [IH.2.1 q hq]
      exact LiveMap.get_set_ne st.1 pre q accumulated hq
    · intro x
      show x ∈ insert pre (mergePhiInp isPred accPhi
        (st.1.set pre accumulated, st.2) pre).2 ↔ _
      rw [Finset.mem_insert, IH.2.2 x]
      show x = pre ∨ x ∈ st.2 ∨ _ ↔ _
      constructor
      · rintro (rfl | hx | ⟨rfl, _⟩)
        · exact Or.inr ⟨rfl, Or.inl hnone⟩
        · exact Or.inl hx
        · exact Or.inr ⟨rfl, Or.inl hnone⟩
      · rintro (hx | ⟨rfl, _⟩)
        · exact Or.inr (Or.inl hx)
        · exact Or.inl rfl
  · rename_i hsome
    rw [Option.isNone_iff_eq_none] at hsome
    have IH := mergePhiInp_spec isPred accPhi (mergeStep st pre accumulated) pre
    refine ⟨?_, ?_, ?_⟩
    · rw [IH.1, mergeStep_get_self]
    · intro q hq
      rw [IH.2.1 q hq]
      exact mergeStep_get_ne st pre q accumulated hq
    · intro x
      rw [IH.2.2 x, mergeStep_todo, mergeStep_get_self]
      have hkey := union_subset_merge_iff accumulated
        (phiMergeSet isPred accPhi pre) ((st.1.get pre).getD ∅)
      constructor
      · rintro ((hx | ⟨rfl, hc⟩) | ⟨rfl, hc⟩)
        · exact Or.inl hx
        · exact Or.inr ⟨rfl, Or.inr (hkey.mp (Or.inl hc))⟩
        · exact Or.inr ⟨rfl, Or.inr (hkey.mp (Or.inr hc))⟩
      · rintro (hx | ⟨rfl, hc | hc⟩)
        · exact Or.inl (Or.inl hx)
        · exact absurd hc hsome
        · rcases hkey.mpr hc with h2 | h2
          · exact Or.inl (Or.inr ⟨rfl, h2⟩)
          · exact Or.inr ⟨rfl, h2⟩

theorem propagate_untouched (isPred : Nat → Nat → Bool)
    (accPhi : List (Nat × Finset Value)) (accumulated : Finset Value) :
    ∀ (preds : List Nat) (st : LiveMap × Finset Nat) (q : Nat), q ∉ preds →
      (propagate isPred accPhi accumulated preds st).1.get q = st.1.get q ∧
      (q ∈ (propagate isPred accPhi accumulated preds st).2 ↔ q ∈ st.2)
  | [], _, _, _ => ⟨rfl, Iff.rfl⟩
  | pre0 :: preds, st, q, hq => by
    have hne : q ≠ pre0 := fun hc => hq (hc ▸ List.mem_cons_self _ _)
    have hrest : q ∉ preds := fun hc => hq (List.mem_cons_of_mem _ hc)
    have IH := propagate_untouched isPred accPhi accumulated preds
      (processPred isPred accPhi accumulated st pre0) q hrest
    have hstep := processPred_spec isPred accPhi accumulated st pre0
    rw [propagate, List.foldl_cons]
    refine ⟨?_, ?_⟩
    · show (propagate isPred accPhi accumulated preds
        (processPred isPred accPhi accumulated st pre0)).1.get q = _
      rw [IH.1, hstep.2.1 q hne]
    · show q ∈ (propagate isPred accPhi accumulated preds
        (processPred isPred accPhi accumulated st pre0)).2 ↔ _
      rw [IH.2, hstep.2.2 q]
      constructor
      · rintro (hx | ⟨rfl, _⟩)
        · exact hx
        · exact absurd rfl hne
      · exact fun hx => Or.inl hx

/-- C8: one fixed-point iteration's merge phase.  For every immediate
    predecessor, the live-out set grows by exactly the ordinary
    accumulator plus those phi-input accumulators whose input block is
    the predecessor itself or reaches it via isPredecessor; the
    predecessor is (re-)enqueued iff it is new or its live-out set grew;
    and no block outside the predecessor list is touched. -/
theorem liveness_merge (isPred : Nat → Nat → Bool)
    (accPhi : List (Nat × Finset Value)) (accumulated : Finset Value) :
    ∀ (preds : List Nat) (st : LiveMap × Finset Nat), preds.Nodup →
      (∀ pre ∈ preds,
        (((propagate isPred accPhi accumulated preds st).1.get pre).getD ∅ =
          (st.1.get pre).getD ∅ ∪ accumulated ∪
            phiMergeSet isPred accPhi pre) ∧
        (pre ∈ (propagate isPred accPhi accumulated preds st).2 ↔
          pre ∈ st.2 ∨ st.1.get pre = none ∨
            ¬ (accumulated ∪ phiMergeSet isPred accPhi pre) ⊆
              (st.1.get pre).getD ∅)) ∧
      (∀ q, q ∉ preds →
        (propagate isPred accPhi accumulated preds st).1.get q =
          st.1.get q ∧
        (q ∈ (propagate isPred accPhi accumulated preds st).2 ↔ q ∈ st.2))
  | [], st, _ => ⟨fun pre hpre => absurd hpre (List.not_mem_nil pre),
      fun q hq => ⟨rfl, Iff.rfl⟩⟩
  | pre0 :: preds, st, hnd => by
    rw [List.nodup_cons] at hnd
    obtain ⟨hpre0, hndr⟩ := hnd
    have hstep := processPred_spec isPred accPhi accumulated st pre0
    have IH := liveness_merge isPred accPhi accumulated preds
      (processPred isPred accPhi accumulated st pre0) hndr
    constructor
    · intro pre hpre
      rcases List.mem_cons.mp hpre with rfl | hpmem
      · have hunt := propagate_untouched isPred accPhi accumulated preds
          (processPred isPred accPhi accumulated st pre) pre hpre0
        rw [propagate, List.foldl_cons]
        constructor
        · show ((propagate isPred accPhi accumulated preds
            (processPred isPred accPhi accumulated st pre)).1.get
              pre).getD ∅ = _
          rw [hunt.1, hstep.1]
        · show pre ∈ (propagate isPred accPhi accumulated preds
            (processPred isPred accPhi accumulated st pre)).2 ↔ _
          rw [hunt.2, hstep.2.2 pre]
          constructor
          · rintro (hx | ⟨_, hc⟩)
            · exact Or.inl hx
            · exact Or.inr hc
          · rintro (hx | hc)
            · exact Or.inl hx
            · exact Or.inr ⟨rfl, hc⟩
      · have hne : pre ≠ pre0 := fun hc => hpre0 (hc ▸ hpmem)
        have hI := IH.1 pre hpmem
        rw [propagate, List.foldl_cons]
        constructor
        · show ((propagate isPred accPhi accumulated preds
            (processPred isPred accPhi accumulated st pre0)).1.get
              pre).getD ∅ = _
          rw [hI.1, hstep.2.1 pre hne]
        · show pre ∈ (propagate isPred accPhi accumulated preds
            (processPred isPred accPhi accumulated st pre0)).2 ↔ _
          rw [hI.2, hstep.2.1 pre hne, hstep.2.2 pre]
          constructor
          · rintro ((hx | ⟨rfl, _⟩) | hc)
            · exact Or.inl hx
            · exact absurd rfl hne
            · exact Or.inr hc
          · rintro (hx | hc)
            · exact Or.inl (Or.inl hx)
            · exact Or.inr hc
    · intro q hq
      have hne : q ≠ pre0 := fun hc => hq (hc ▸ List.mem_cons_self _ _)
      have hrest : q ∉ preds := fun hc => hq (List.mem_cons_of_mem _ hc)
      have hI := IH.2 q hrest
      rw [propagate, List.foldl_cons]
      constructor
      · show (propagate isPred accPhi accumulated preds
          (processPred isPred accPhi accumulated st pre0)).1.get q = _
        rw [hI.1, hstep.2.1 q hne]
      · show q ∈ (propagate isPred accPhi accumulated preds
          (processPred isPred accPhi accumulated st pre0)).2 ↔ _
        rw [hI.2, hstep.2.2 q]
        constructor
        · rintro (hx | ⟨rfl, _⟩)
          · exact hx
          · exact absurd rfl hne
        · exact fun hx => Or.inl hx

/-- Witness for C8: two fresh predecessors 3 and 4; the phi accumulator
    keyed by block 9 qualifies for 3 (via isPredecessor), the one keyed
    by 5 does not. -/
theorem liveness_merge_witness :
    ([3, 4] : List Nat).Nodup ∧
    ((propagate (fun a b => a = 9 && b = 3) [(9, {7}), (5, {8})] {1}
      [3, 4] ([], ∅)).1.get 3).getD ∅ =
      ((([], ∅) : LiveMap × Finset Nat).1.get 3).getD ∅ ∪ {1} ∪
        phiMergeSet (fun a b => a = 9 && b = 3) [(9, {7}), (5, {8})] 3 :=
  ⟨by decide,
    ((liveness_merge (fun a b => a = 9 && b = 3) [(9, {7}), (5, {8})] {1}
      [3, 4] ([], ∅) (by decide)).1 3 (by decide)).1⟩

/-! ## The compilation driver (C9)

`Pir2RirCompiler::compile(cls, origin)`: return if the closure is in the
`done` set; record it; return if the dispatch table already has tier 1;
lower (`finalize`); under DryRun return without installing; otherwise
`table->put(1, fun)`.  The closure, the produced function and the
dispatch table rows are identified by numbers; `finalize` is abstracted
by the id of the function it would produce. -/

/-- `DispatchTable` contents as tier-to-function bindings. -/
abbrev DTable := List (Nat × Nat)

def DTable.get : DTable → Nat → Option Nat
  | [], _ => none
  | (t, f) :: d, tier => if tier = t then some f else DTable.get d tier

/-- `available(tier)` (spec section 6): the tier has an entry. -/
def DTable.available (d : DTable) (tier : Nat) : Bool := (d.get tier).isSome

/-- `put(tier, function)`. -/
def DTable.put (d : DTable) (tier f : Nat) : DTable := (tier, f) :: d

/-- Result of one `compile` call: the new done set, the (possibly
    updated) dispatch table, whether the lowering (`finalize`) ran, and
    whether the result was installed. -/
structure CompileResult where
  done : Finset Nat
  table : DTable
  produced : Bool
  installed : Bool
deriving DecidableEq

/-- `Pir2RirCompiler::compile`. -/
def compilerCompile (done : Finset Nat) (table : DTable) (dryRun : Bool)
    (cls : Nat) (newFun : Nat) : CompileResult :=
  if cls ∈ done then ⟨done, table, false, false⟩
  else
    if table.available 1 then ⟨insert cls done, table, false, false⟩
    else
      if dryRun then ⟨insert cls done, table, true, false⟩
      else ⟨insert cls done, table.put 1 newFun, true, true⟩

/-- C9: compile returns without lowering or installing when the closure
    is already done or tier 1 is already available (the done set still
    records the closure in the latter case); with DryRun set it lowers
    but leaves the dispatch table unchanged and installs nothing. -/
theorem compile_short_circuit (done : Finset Nat) (table : DTable)
    (dryRun : Bool) (cls newFun : Nat) :
    (cls ∈ done →
      compilerCompile done table dryRun cls newFun =
        ⟨done, table, false, false⟩) ∧
    (cls ∉ done → table.available 1 = true →
      compilerCompile done table dryRun cls newFun =
        ⟨insert cls done, table, false, false⟩) ∧
    (cls ∉ done → table.available 1 = false → dryRun = true →
      compilerCompile done table dryRun cls newFun =
        ⟨insert cls done, table, true, false⟩) := by
  refine ⟨?_, ?_, ?_⟩
  · intro h
    rw [compilerCompile, if_pos h]
  · intro h1 h2
    rw [compilerCompile, if_neg h1, if_pos h2]
  · intro h1 h2 h3
    rw [compilerCompile, if_neg h1, if_neg (by rw [h2]; exact Bool.noConfusion),
      if_pos h3]

/-- Witness for C9: a done closure is skipped, and a DryRun lowering
    leaves the table unchanged. -/
theorem compile_short_circuit_witness :
    ((5 : Nat) ∈ ({5} : Finset Nat) ∧
      compilerCompile {5} [] false 5 99 =
        ⟨{5}, [], false, false⟩) ∧
    ((6 : Nat) ∉ ({5} : Finset Nat) ∧ DTable.available [] 1 = false ∧
      compilerCompile {5} [] true 6 99 =
        ⟨insert 6 {5}, [], true, false⟩) :=
  ⟨⟨by decide,
    (compile_short_circuit {5} [] false 5 99).1 (by decide)⟩,
   ⟨by decide, by decide,
    (compile_short_circuit {5} [] true 6 99).2.2 (by decide) (by decide) rfl⟩⟩

/-! ## Emitter: implicit environment argument position (C10)

In `Pir2Rir::compileCode`, before loading and setting the environment of
a non-phi instruction that has an environment and is not an
environment-creating instruction (`MkEnv`) or a deopt point (`Deopt`),
the emitter asserts `instr->envSlot() == instr->nargs() - 1`; an
instruction with an environment has it among its arguments, so
`nargs >= 1`. -/

/-- The environment operand: a static environment, the not-closed
    sentinel, or an ordinary Value. -/
inductive EnvOperand
  | staticEnv (rho : Nat)
  | notClosed
  | value (v : Value)
deriving DecidableEq

/-- Bytecode emitted by the environment-handling step. -/
inductive BCOp
  | push (c : Nat)
  | parentEnv
  | ldloc (n : Nat)
  | setEnv
  | pop
deriving DecidableEq

/-- Emitter aborts in this step. -/
inductive EmitErr
  | envNotLast (v : Value)
  | unknownEnvLoad (v : Value)
deriving DecidableEq

/-- What this step reads off an instruction. -/
structure EInstr where
  val : Value
  isPhi : Bool
  isMkEnv : Bool
  isDeopt : Bool
  hasEnv : Bool
  envSlot : Nat
  nargs : Nat
  env : EnvOperand

/-- The `loadEnv` lambda: static environments are pushed, the not-closed
    sentinel emits `parentEnv`, an unallocated Value aborts, a local
    slot emits `ldloc` (the allocator subtracts one from slot numbers),
    and a stack-allocated Value emits nothing. -/
def loadEnv (a : Alloc) (what : EnvOperand) : Except EmitErr (List BCOp) :=
  match what with
  | EnvOperand.staticEnv rho => Except.ok [BCOp.push rho]
  | EnvOperand.notClosed => Except.ok [BCOp.parentEnv]
  | EnvOperand.value v =>
    match a.find v with
    | none => Except.error (EmitErr.unknownEnvLoad v)
    | some Slot.stack => Except.ok []
    | some (Slot.loc s) => Except.ok [BCOp.ldloc (s - 1)]

/-- Whether `alloc.hasSlot(env) && alloc.onStack(env)` holds. -/
def envOnStack (a : Alloc) (e : EnvOperand) : Bool :=
  match e with
  | EnvOperand.value v => a.find v == some Slot.stack
  | _ => false

/-- Step one of the argument loading in `Pir2Rir::compileCode`: load and
    set the environment of a non-phi instruction with an implicit
    environment use, asserting first that the environment operand is the
    last argument. -/
def loadAndSetEnv (a : Alloc) (cur : Option EnvOperand) (i : EInstr) :
    Except EmitErr (List BCOp × Option EnvOperand) :=
  if i.isPhi then Except.ok ([], cur)
  else
    if i.hasEnv && !(i.isMkEnv || i.isDeopt) then
      if i.envSlot ≠ i.nargs - 1 then Except.error (EmitErr.envNotLast i.val)
      else
        if cur ≠ some i.env then
          match loadEnv a i.env with
          | Except.error e => Except.error e
          | Except.ok ops => Except.ok (ops ++ [BCOp.setEnv], some i.env)
        else
          if envOnStack a i.env then Except.ok ([BCOp.pop], cur)
          else Except.ok ([], cur)
    else Except.ok ([], cur)

/-- C10: the environment-loading step aborts with the env-position
    assertion exactly on a non-phi instruction that has an environment
    operand, is neither MkEnv nor Deopt, and whose environment is not in
    the last argument position. -/
theorem emitter_env_assert (a : Alloc) (cur : Option EnvOperand) (i : EInstr)
    (_hn : 1 ≤ i.nargs) :
    loadAndSetEnv a cur i = Except.error (EmitErr.envNotLast i.val) ↔
      (i.isPhi = false ∧ i.hasEnv = true ∧ i.isMkEnv = false ∧
        i.isDeopt = false ∧ i.envSlot ≠ i.nargs - 1) := by
  rw [loadAndSetEnv]
  constructor
  · intro h
    by_cases hphi : i.isPhi = true
    · rw [if_pos hphi] at h
      exact Except.noConfusion h
    · rw [if_neg hphi] at h
      rw [Bool.not_eq_true] at hphi
      by_cases henv : (i.hasEnv && !(i.isMkEnv || i.isDeopt)) = true
      · rw [if_pos henv] at h
        rw [Bool.and_eq_true, Bool.not_eq_true', Bool.or_eq_false_iff] at henv
        by_cases hslot : i.envSlot ≠ i.nargs - 1
        · exact ⟨hphi, henv.1, henv.2.1, henv.2.2, hslot⟩
        · rw [if_neg hslot] at h
          by_cases hcur : cur ≠ some i.env
          · rw [if_pos hcur] at h
            cases hload : loadEnv a i.env with
            | error e =>
              rw [hload] at h
              injection h with he
              cases hle : i.env with
              | staticEnv rho => rw [hle] at hload; exact Except.noConfusion hload
              | notClosed => rw [hle] at hload; exact Except.noConfusion hload
              | value v =>
                rw [hle] at hload
                rw [loadEnv] at hload
                cases hfind : a.find v with
                | none =>
                  rw [hfind] at hload
                  injection hload with he2
                  rw [← he2] at he
                  exact EmitErr.noConfusion he
                | some s =>
                  rw [hfind] at hload
                  cases s with
                  | stack => exact Except.noConfusion hload
                  | loc n => exact Except.noConfusion hload
            | ok ops =>
              rw [hload] at h
              exact Except.noConfusion h
          · rw [if_neg hcur] at h
            split at h
            · exact Except.noConfusion h
            · exact Except.noConfusion h
      · rw [if_neg henv] at h
        exact Except.noConfusion h
  · rintro ⟨hphi, henv, hmk, hdp, hslot⟩
    rw [if_neg (by rw [hphi]; exact Bool.noConfusion),
      if_pos (by rw [henv, hmk, hdp]; rfl), if_pos hslot]

/-- Witness for C10: an instruction with two arguments whose environment
    sits in slot 0 instead of the last position aborts. -/
theorem emitter_env_assert_witness :
    1 ≤ (EInstr.mk 5 false false false true 0 2 (EnvOperand.value 7)).nargs ∧
    loadAndSetEnv [] none
      (EInstr.mk 5 false false false true 0 2 (EnvOperand.value 7)) =
      Except.error (EmitErr.envNotLast 5) :=
  ⟨by decide,
    (emitter_env_assert [] none
      (EInstr.mk 5 false false false true 0 2 (EnvOperand.value 7))
      (by decide)).mpr (by decide)⟩

/-! ## CSSA construction (C6)

`Pir2Rir::toCSSA`: for each phi, one fresh `PirCopy` per incoming value
is inserted into the corresponding predecessor (at the end when the
predecessor is a jump, else immediately before its terminating branch),
the phi's arguments are redirected to those copies, a fresh copy of the
phi is inserted immediately after it, and all other uses of the phi are
rewritten to that copy (`replaceUsesWith`, modelled from the spec).
Instructions are identified by numeric ids standing for the C++ pointer
identity; fresh ids play the role of `new PirCopy(...)` allocations.
The visitor enumerates every block once; the block list is taken in that
visitation order. -/

inductive CTag
  | copy
  | phi
  | other
deriving DecidableEq

/-- An instruction: id, tag, arguments; for a phi, `preds` lists the
    input blocks parallel to `args`. -/
structure CInstr where
  id : Value
  tag : CTag
  args : List Value
  preds : List Nat
deriving DecidableEq

structure CBB where
  id : Nat
  instrs : List CInstr
  next0 : Option Nat
  next1 : Option Nat
deriving DecidableEq

abbrev CCode := List CBB

/-- `BB::isJmp`: exactly one successor through next0. -/
def CBB.isJmp (b : CBB) : Bool := b.next0.isSome && b.next1.isNone

/-- The insertion point of a predecessor copy:
    `pred->isJmp() ? pred->end() : pred->end() - 1`. -/
def CBB.insertBeforeEnd (b : CBB) (c : CInstr) : CBB :=
  if b.isJmp then { b with instrs := b.instrs ++ [c] }
  else
    { b with
      instrs := b.instrs.dropLast ++ c :: b.instrs.drop (b.instrs.length - 1) }

def insertCopyInBlock (code : CCode) (bId : Nat) (c : CInstr) : CCode :=
  code.map fun b => if b.id = bId then b.insertBeforeEnd c else b

/-- Point substitution of one Value by another. -/
def substV (o n2 v : Value) : Value := if v = o then n2 else v

/-- `replaceUsesWith` (modelled from the spec: rewrite all uses of the
    old Value to the new one; the new copy itself is inserted
    afterwards, so it keeps its use of the phi). -/
def replaceUses (code : CCode) (oldV newV : Value) : CCode :=
  code.map fun b =>
    { b with
      instrs := b.instrs.map fun i =>
        { i with args := i.args.map (substV oldV newV) } }

/-- Redirect the phi's arguments to the new copies
    (`phi->arg(i).val() = *copy`). -/
def setPhiArgs (code : CCode) (pid : Value) (newArgs : List Value) : CCode :=
  code.map fun b =>
    { b with
      instrs := b.instrs.map fun i =>
        if i.id = pid then { i with args := newArgs } else i }

/-- Insert `c` immediately after the instruction with id `pid`
    (`it = bb->insert(it + 1, phiCopy)`). -/
def insertAfterInstr (c : CInstr) (pid : Value) : List CInstr → List CInstr
  | [] => []
  | i :: rest =>
    if i.id = pid then i :: c :: rest else i :: insertAfterInstr c pid rest

def insertAfterPhi (code : CCode) (bId : Nat) (pid : Value) (c : CInstr) :
    CCode :=
  code.map fun b =>
    if b.id = bId then { b with instrs := insertAfterInstr c pid b.instrs }
    else b

/-- The copies created for one phi, in input order: the k-th copy gets
    the k-th fresh id, reads the phi's k-th incoming value and is bound
    for the k-th predecessor block. -/
def stepCopies (p : CInstr) (fresh : Nat) : List (Nat × CInstr) :=
  (List.range p.args.length).map fun k =>
    (p.preds.getD k 0, ⟨fresh + k, CTag.copy, [p.args.getD k 0], []⟩)

/-- Processing of one phi: insert one fresh copy per input into its
    predecessor, redirect the phi's arguments, rewrite the remaining
    uses of the phi to a fresh copy of it, and place that copy right
    after the phi. -/
def processPhiStep (st : CCode × Nat) (pb : Nat × Value) : CCode × Nat :=
  match (st.1.flatMap CBB.instrs).find? (fun i => i.id = pb.2) with
  | none => st
  | some p =>
    let fresh := st.2
    let n := p.args.length
    let code1 := (stepCopies p fresh).foldl
      (fun c2 pr => insertCopyInBlock c2 pr.1 pr.2) st.1
    let code2 := setPhiArgs code1 pb.2 ((List.range n).map (fresh + ·))
    let code3 := replaceUses code2 pb.2 (fresh + n)
    let code4 := insertAfterPhi code3 pb.1 pb.2
      ⟨fresh + n, CTag.copy, [pb.2], []⟩
    (code4, fresh + n + 1)

/-- The phis of the code, in visitation order. -/
def phiList (code : CCode) : List (Nat × Value) :=
  code.flatMap fun b =>
    (b.instrs.filter fun i => i.tag = CTag.phi).map fun p => (b.id, p.id)

/-- `Pir2Rir::toCSSA` over a code object, with a supply of fresh ids. -/
def toCSSA (code : CCode) (fresh : Nat) : CCode × Nat :=
  (phiList code).foldl processPhiStep (code, fresh)

/-- All instruction ids of a code object. -/
def idsOf (code : CCode) : List Value :=
  code.flatMap fun b => b.instrs.map CInstr.id

/-- Value `x` is used only by the instruction with id `uId`. -/
def usedOnlyBy (code : CCode) (x uId : Value) : Prop :=
  ∀ b ∈ code, ∀ i ∈ b.instrs, x ∈ i.args → i.id = uId

/-- The instruction immediately following the instruction `pid` in an
    instruction list. -/
def followerIn (pid : Value) : List CInstr → Option CInstr
  | [] => none
  | i :: rest => if i.id = pid then rest.head? else followerIn pid rest

/-- No two (in-)equal instructions share an id. -/
def InstrIdUnique (code : CCode) : Prop :=
  ∀ b1 ∈ code, ∀ i1 ∈ b1.instrs, ∀ b2 ∈ code, ∀ i2 ∈ b2.instrs,
    i1.id = i2.id → i1 = i2

/-- Well-formedness of the input code for CSSA construction. -/
def CodeWF (code : CCode) (fresh : Nat) : Prop :=
  (∀ v ∈ idsOf code, v < fresh) ∧
  (idsOf code).Nodup ∧
  (code.map CBB.id).Nodup ∧
  (∀ b ∈ code, ∀ i ∈ b.instrs, ∀ v ∈ i.args, v < fresh) ∧
  (∀ b ∈ code, ∀ p ∈ b.instrs, p.tag = CTag.phi →
    p.preds.length = p.args.length ∧
    ∀ pd ∈ p.preds, ∃ bp ∈ code, bp.id = pd ∧
      (bp.isJmp = true ∨ bp.next1.isSome = true)) ∧
  (∀ b ∈ code, b.next1.isSome = true →
    ∃ lst, b.instrs.getLast? = some lst ∧ lst.tag ≠ CTag.phi)

/-- The established CSSA shape of one processed phi: its arguments are
    distinct fresh copies, each placed in the corresponding predecessor
    block and used only by this phi, and the instruction immediately
    after the phi is a fresh copy of it that owns every remaining use of
    the phi. -/
def PhiDone (code : CCode) (bId : Nat) (pid : Value) (fresh0 : Nat) : Prop :=
  ∃ b ∈ code, b.id = bId ∧ ∃ p ∈ b.instrs, p.id = pid ∧ p.tag = CTag.phi ∧
    p.args.Nodup ∧ p.preds.length = p.args.length ∧
    (∀ k, k < p.args.length →
      fresh0 ≤ p.args.getD k 0 ∧
      (∃ bp ∈ code, bp.id = p.preds.getD k 0 ∧
        ∃ c ∈ bp.instrs, c.id = p.args.getD k 0 ∧ c.tag = CTag.copy) ∧
      usedOnlyBy code (p.args.getD k 0) pid) ∧
    (∃ pc, followerIn pid b.instrs = some pc ∧ pc.tag = CTag.copy ∧
      pc.args = [pid] ∧ fresh0 ≤ pc.id ∧ usedOnlyBy code pid pc.id)

theorem dropLast_append_drop (l : List CInstr) :
    l.dropLast ++ l.drop (l.length - 1) = l := by
  rw [List.dropLast_eq_take, List.take_append_drop]

theorem drop_length_sub_one :
    ∀ (l : List CInstr) (lst : CInstr), l.getLast? = some lst →
      l.drop (l.length - 1) = [lst]
  | [], lst, h => Option.noConfusion h
  | [i], lst, h => by
    have he : i = lst := by simpa using h
    subst he
    rfl
  | i :: j :: l, lst, h => by
    rw [List.getLast?_cons_cons] at h
    have IH := drop_length_sub_one (j :: l) lst h
    show List.drop ((i :: j :: l).length - 1) (i :: j :: l) = [lst]
    have h1 : (i :: j :: l).length - 1 = (j :: l).length := by simp
    rw [h1]
    have h2 : (j :: l).length = ((j :: l).length - 1) + 1 := by simp
    rw [h2, List.drop_succ_cons]
    exact IH

theorem CBB.insertBeforeEnd_id (b : CBB) (c : CInstr) :
    (b.insertBeforeEnd c).id = b.id := by
  rw [CBB.insertBeforeEnd]
  split <;> rfl

theorem CBB.insertBeforeEnd_next0 (b : CBB) (c : CInstr) :
    (b.insertBeforeEnd c).next0 = b.next0 := by
  rw [CBB.insertBeforeEnd]
  split <;> rfl

theorem CBB.insertBeforeEnd_next1 (b : CBB) (c : CInstr) :
    (b.insertBeforeEnd c).next1 = b.next1 := by
  rw [CBB.insertBeforeEnd]
  split <;> rfl

theorem mem_insertBeforeEnd (b : CBB) (c i : CInstr) :
    i ∈ (b.insertBeforeEnd c).instrs ↔ i ∈ b.instrs ∨ i = c := by
  rw [CBB.insertBeforeEnd]
  split
  · simp
  · show i ∈ b.instrs.dropLast ++ c :: b.instrs.drop (b.instrs.length - 1) ↔ _
    rw [List.mem_append, List.mem_cons]
    constructor
    · rintro (h | h | h)
      · exact Or.inl (List.dropLast_subset _ h)
      · exact Or.inr h
      · exact Or.inl (List.drop_subset _ _ h)
    · rintro (h | h)
      · rcases List.mem_append.mp (by rw [dropLast_append_drop]; exact h :
          i ∈ b.instrs.dropLast ++ b.instrs.drop (b.instrs.length - 1)) with
          h2 | h2
        · exact Or.inl h2
        · exact Or.inr (Or.inr h2)
      · exact Or.inr (Or.inl h)

theorem getLast?_insertBeforeEnd (b : CBB) (c : CInstr)
    (hj : b.isJmp = false) (lst : CInstr) (hl : b.instrs.getLast? = some lst) :
    (b.insertBeforeEnd c).instrs.getLast? = some lst := by
  rw [CBB.insertBeforeEnd, if_neg (by rw [hj]; exact Bool.noConfusion)]
  show (b.instrs.dropLast ++ c :: b.instrs.drop (b.instrs.length - 1)).getLast?
    = _
  rw [drop_length_sub_one b.instrs lst hl]
  simp

theorem followerIn_mem_append (pid : Value) (c : CInstr) :
    ∀ (l : List CInstr) (x : CInstr), followerIn pid l = some x →
      followerIn pid (l ++ [c]) = some x
  | [], x, h => Option.noConfusion h
  | i :: rest, x, h => by
    rw [followerIn] at h
    rw [List.cons_append, followerIn]
    by_cases hi : i.id = pid
    · rw [if_pos hi] at h ⊢
      cases rest with
      | nil => exact Option.noConfusion h
      | cons y r => exact h
    · rw [if_neg hi] at h ⊢
      exact followerIn_mem_append pid c rest x h

theorem followerIn_insertBeforeLast (pid : Value) (c : CInstr) :
    ∀ (l : List CInstr) (x : CInstr), followerIn pid l = some x →
      (∀ lst, l.getLast? = some lst → lst.id ≠ x.id) →
      followerIn pid (l.dropLast ++ c :: l.drop (l.length - 1)) = some x
  | [], x, h, _ => Option.noConfusion h
  | [i], x, h, _ => by
    rw [followerIn] at h
    by_cases hi : i.id = pid
    · rw [if_pos hi] at h
      exact Option.noConfusion h
    · rw [if_neg hi] at h
      exact Option.noConfusion h
  | i :: j :: rest, x, h, hlast => by
    rw [followerIn] at h
    have hsplit : (i :: j :: rest).dropLast ++
        c :: (i :: j :: rest).drop ((i :: j :: rest).length - 1) =
        i :: ((j :: rest).dropLast ++
          c :: (j :: rest).drop ((j :: rest).length - 1)) := by
      show i :: (j :: rest).dropLast ++ _ = _
      rw [List.cons_append]
      congr 2
    rw [hsplit, followerIn]
    by_cases hi : i.id = pid
    · rw [if_pos hi] at h ⊢
      cases rest with
      | nil =>
        injection h with he
        have := hlast j (by rw [List.getLast?_cons_cons]; rfl)
        rw [he] at this
        exact absurd rfl this
      | cons r rs =>
        injection h with he
        rw [show (j :: r :: rs).dropLast = j :: (r :: rs).dropLast from rfl]
        rw [List.cons_append, List.head?_cons]
        exact congrArg some he
    · rw [if_neg hi] at h ⊢
      exact followerIn_insertBeforeLast pid c (j :: rest) x h
        (fun lst hl => hlast lst (by rw [List.getLast?_cons_cons]; exact hl))

theorem followerIn_map (pid : Value) (g : CInstr → CInstr)
    (hg : ∀ i, (g i).id = i.id) :
    ∀ (l : List CInstr), followerIn pid (l.map g) = (followerIn pid l).map g
  | [] => rfl
  | i :: rest => by
    rw [List.map_cons, followerIn, followerIn, hg i]
    by_cases hi : i.id = pid
    · rw [if_pos hi, if_pos hi, List.head?_map]
    · rw [if_neg hi, if_neg hi]
      exact followerIn_map pid g hg rest

theorem head?_insertAfterInstr (c : CInstr) (pid : Value) :
    ∀ (l : List CInstr), l ≠ [] → (insertAfterInstr c pid l).head? = l.head?
  | [], h => absurd rfl h
  | i :: rest, _ => by
    rw [insertAfterInstr]
    by_cases hi : i.id = pid
    · rw [if_pos hi]
      rfl
    · rw [if_neg hi]
      rfl

theorem followerIn_insertAfterInstr_other (c : CInstr) (pid pid2 : Value)
    (hne : pid ≠ pid2) (hc : c.id ≠ pid) :
    ∀ (l : List CInstr) (x : CInstr), followerIn pid l = some x →
      followerIn pid (insertAfterInstr c pid2 l) = some x
  | [], x, h => Option.noConfusion h
  | i :: rest, x, h => by
    rw [followerIn] at h
    rw [insertAfterInstr]
    by_cases hi2 : i.id = pid2
    · rw [if_pos hi2]
      have hip : ¬ i.id = pid := by
        rw [hi2]
        exact fun hcc => hne hcc.symm
      rw [if_neg hip] at h
      rw [followerIn, if_neg hip, followerIn, if_neg hc]
      exact h
    · rw [if_neg hi2, followerIn]
      by_cases hip : i.id = pid
      · rw [if_pos hip] at h ⊢
        cases rest with
        | nil => exact Option.noConfusion h
        | cons y r =>
          rw [head?_insertAfterInstr c pid2 (y :: r) (by simp)]
          exact h
      · rw [if_neg hip] at h ⊢
        exact followerIn_insertAfterInstr_other c pid pid2 hne hc rest x h

theorem followerIn_insertAfterInstr_self (c : CInstr) (pid : Value) :
    ∀ (l : List CInstr), (∃ i ∈ l, i.id = pid) →
      followerIn pid (insertAfterInstr c pid l) = some c
  | [], h => by
    obtain ⟨i, hi, _⟩ := h
    exact absurd hi (List.not_mem_nil i)
  | i :: rest, h => by
    rw [insertAfterInstr]
    by_cases hi : i.id = pid
    · rw [if_pos hi, followerIn, if_pos hi]
      rfl
    · rw [if_neg hi, followerIn, if_neg hi]
      refine followerIn_insertAfterInstr_self c pid rest ?_
      obtain ⟨j, hj, hjid⟩ := h
      rcases List.mem_cons.mp hj with rfl | hj2
      · exact absurd hjid hi
      · exact ⟨j, hj2, hjid⟩

theorem mem_insertAfterInstr (c : CInstr) (pid : Value) :
    ∀ (l : List CInstr) (i : CInstr), i ∈ insertAfterInstr c pid l →
      i ∈ l ∨ i = c
  | [], i, h => absurd h (List.not_mem_nil i)
  | j :: rest, i, h => by
    rw [insertAfterInstr] at h
    by_cases hj : j.id = pid
    · rw [if_pos hj] at h
      rcases List.mem_cons.mp h with rfl | h2
      · exact Or.inl (List.mem_cons_self _ _)
      · rcases List.mem_cons.mp h2 with rfl | h3
        · exact Or.inr rfl
        · exact Or.inl (List.mem_cons_of_mem _ h3)
    · rw [if_neg hj] at h
      rcases List.mem_cons.mp h with rfl | h2
      · exact Or.inl (List.mem_cons_self _ _)
      · rcases mem_insertAfterInstr c pid rest i h2 with h3 | h3
        · exact Or.inl (List.mem_cons_of_mem _ h3)
        · exact Or.inr h3

theorem mem_of_mem_insertAfterInstr (c : CInstr) (pid : Value) :
    ∀ (l : List CInstr) (i : CInstr), i ∈ l → i ∈ insertAfterInstr c pid l
  | [], i, h => absurd h (List.not_mem_nil i)
  | j :: rest, i, h => by
    rw [insertAfterInstr]
    by_cases hj : j.id = pid
    · rw [if_pos hj]
      rcases List.mem_cons.mp h with rfl | h2
      · exact List.mem_cons_self _ _
      · exact List.mem_cons_of_mem _ (List.mem_cons_of_mem _ h2)
    · rw [if_neg hj]
      rcases List.mem_cons.mp h with rfl | h2
      · exact List.mem_cons_self _ _
      · exact List.mem_cons_of_mem _
          (mem_of_mem_insertAfterInstr c pid rest i h2)

theorem c_mem_insertAfterInstr (c : CInstr) (pid : Value) :
    ∀ (l : List CInstr), (∃ i ∈ l, i.id = pid) → c ∈ insertAfterInstr c pid l
  | [], h => by
    obtain ⟨i, hi, _⟩ := h
    exact absurd hi (List.not_mem_nil i)
  | j :: rest, h => by
    rw [insertAfterInstr]
    by_cases hj : j.id = pid
    · rw [if_pos hj]
      exact List.mem_cons_of_mem _ (List.mem_cons_self _ _)
    · rw [if_neg hj]
      obtain ⟨i, hi, hiid⟩ := h
      rcases List.mem_cons.mp hi with rfl | h2
      · exact absurd hiid hj
      · exact List.mem_cons_of_mem _
          (c_mem_insertAfterInstr c pid rest ⟨i, h2, hiid⟩)

theorem getLast?_insertAfterInstr (c : CInstr) (pid : Value) :
    ∀ (l : List CInstr), (∀ lst, l.getLast? = some lst → lst.id ≠ pid) →
      (insertAfterInstr c pid l).getLast? = l.getLast?
  | [], _ => rfl
  | [i], h => by
    rw [insertAfterInstr]
    have hi : i.id ≠ pid := h i rfl
    rw [if_neg hi]
    rfl
  | i :: j :: rest, h => by
    rw [insertAfterInstr]
    by_cases hi : i.id = pid
    · rw [if_pos hi]
      rw [List.getLast?_cons_cons, List.getLast?_cons_cons,
        List.getLast?_cons_cons]
    · rw [if_neg hi]
      have hrec := getLast?_insertAfterInstr c pid (j :: rest)
        (fun lst hl => h lst (by rw [List.getLast?_cons_cons]; exact hl))
      cases hia : insertAfterInstr c pid (j :: rest) with
      | nil =>
        rw [insertAfterInstr] at hia
        by_cases hj : j.id = pid
        · rw [if_pos hj] at hia
          exact List.noConfusion hia
        · rw [if_neg hj] at hia
          exact List.noConfusion hia
      | cons y r =>
        rw [hia] at hrec
        rw [List.getLast?_cons_cons, List.getLast?_cons_cons]
        exact hrec

theorem getLast?_map_instrs (g : CInstr → CInstr) :
    ∀ (l : List CInstr), (l.map g).getLast? = (l.getLast?).map g
  | [] => rfl
  | [i] => rfl
  | i :: j :: rest => by
    rw [List.map_cons, List.map_cons, List.getLast?_cons_cons,
      List.getLast?_cons_cons, ← List.map_cons]
    exact getLast?_map_instrs g (j :: rest)

theorem mem_map_substV (o n2 x : Value) (args : List Value) :
    x ∈ args.map (substV o n2) ↔
      (x ∈ args ∧ x ≠ o) ∨ (x = n2 ∧ o ∈ args) := by
  rw [List.mem_map]
  constructor
  · rintro ⟨w, hw, hwx⟩
    rw [substV] at hwx
    by_cases hwo : w = o
    · rw [if_pos hwo] at hwx
      exact Or.inr ⟨hwx.symm, hwo ▸ hw⟩
    · rw [if_neg hwo] at hwx
      subst hwx
      exact Or.inl ⟨hw, hwo⟩
  · rintro (⟨hx, hxo⟩ | ⟨rfl, ho⟩)
    · exact ⟨x, hx, by rw [substV, if_neg hxo]⟩
    · exact ⟨o, ho, by rw [substV, if_pos rfl]⟩

/-- The per-block effect of the copy-insertion loop. -/
def perBlockFold (inss : List (Nat × CInstr)) (b : CBB) : CBB :=
  inss.foldl
    (fun b2 pr => if b2.id = pr.1 then b2.insertBeforeEnd pr.2 else b2) b

theorem foldInsert_eq_map :
    ∀ (inss : List (Nat × CInstr)) (code : CCode),
      inss.foldl (fun c2 pr => insertCopyInBlock c2 pr.1 pr.2) code =
        code.map (perBlockFold inss)
  | [], code => by
    show code = code.map (fun b => b)
    simp
  | pr :: inss, code => by
    rw [List.foldl_cons,
      foldInsert_eq_map inss (insertCopyInBlock code pr.1 pr.2),
      insertCopyInBlock, List.map_map]
    rfl

theorem perBlockFold_id :
    ∀ (inss : List (Nat × CInstr)) (b : CBB), (perBlockFold inss b).id = b.id
  | [], _ => rfl
  | pr :: inss, b => by
    rw [perBlockFold, List.foldl_cons]
    rw [show (inss.foldl
      (fun b2 pr => if b2.id = pr.1 then b2.insertBeforeEnd pr.2 else b2)
      (if b.id = pr.1 then b.insertBeforeEnd pr.2 else b)) =
      perBlockFold inss (if b.id = pr.1 then b.insertBeforeEnd pr.2 else b)
      from rfl]
    rw [perBlockFold_id inss _]
    split
    · exact CBB.insertBeforeEnd_id _ _
    · rfl

theorem perBlockFold_next0 :
    ∀ (inss : List (Nat × CInstr)) (b : CBB),
      (perBlockFold inss b).next0 = b.next0
  | [], _ => rfl
  | pr :: inss, b => by
    rw [perBlockFold, List.foldl_cons]
    rw [show (inss.foldl
      (fun b2 pr => if b2.id = pr.1 then b2.insertBeforeEnd pr.2 else b2)
      (if b.id = pr.1 then b.insertBeforeEnd pr.2 else b)) =
      perBlockFold inss (if b.id = pr.1 then b.insertBeforeEnd pr.2 else b)
      from rfl]
    rw [perBlockFold_next0 inss _]
    split
    · exact CBB.insertBeforeEnd_next0 _ _
    · rfl

theorem perBlockFold_next1 :
    ∀ (inss : List (Nat × CInstr)) (b : CBB),
      (perBlockFold inss b).next1 = b.next1
  | [], _ => rfl
  | pr :: inss, b => by
    rw [perBlockFold, List.foldl_cons]
    rw [show (inss.foldl
      (fun b2 pr => if b2.id = pr.1 then b2.insertBeforeEnd pr.2 else b2)
      (if b.id = pr.1 then b.insertBeforeEnd pr.2 else b)) =
      perBlockFold inss (if b.id = pr.1 then b.insertBeforeEnd pr.2 else b)
      from rfl]
    rw [perBlockFold_next1 inss _]
    split
    · exact CBB.insertBeforeEnd_next1 _ _
    · rfl

theorem perBlockFold_isJmp (inss : List (Nat × CInstr)) (b : CBB) :
    (perBlockFold inss b).isJmp = b.isJmp := by
  rw [CBB.isJmp, CBB.isJmp, perBlockFold_next0, perBlockFold_next1]

theorem perBlockFold_mem :
    ∀ (inss : List (Nat × CInstr)) (b : CBB) (i : CInstr),
      i ∈ (perBlockFold inss b).instrs ↔
        i ∈ b.instrs ∨ ∃ pr ∈ inss, b.id = pr.1 ∧ i = pr.2
  | [], b, i => by simp [perBlockFold]
  | pr :: inss, b, i => by
    rw [perBlockFold, List.foldl_cons]
    rw [show (inss.foldl
      (fun b2 pr => if b2.id = pr.1 then b2.insertBeforeEnd pr.2 else b2)
      (if b.id = pr.1 then b.insertBeforeEnd pr.2 else b)) =
      perBlockFold inss (if b.id = pr.1 then b.insertBeforeEnd pr.2 else b)
      from rfl]
    rw [perBlockFold_mem inss _ i]
    by_cases hb : b.id = pr.1
    · rw [if_pos hb]
      rw [mem_insertBeforeEnd]
      rw [CBB.insertBeforeEnd_id]
      constructor
      · rintro ((h | h) | ⟨pr2, hpr2, h1, h2⟩)
        · exact Or.inl h
        · exact Or.inr ⟨pr, List.mem_cons_self _ _, hb, h⟩
        · exact Or.inr ⟨pr2, List.mem_cons_of_mem _ hpr2, h1, h2⟩
      · rintro (h | ⟨pr2, hpr2, h1, h2⟩)
        · exact Or.inl (Or.inl h)
        · rcases List.mem_cons.mp hpr2 with rfl | hpr3
          · exact Or.inl (Or.inr h2)
          · exact Or.inr ⟨pr2, hpr3, h1, h2⟩
    · rw [if_neg hb]
      constructor
      · rintro (h | ⟨pr2, hpr2, h1, h2⟩)
        · exact Or.inl h
        · exact Or.inr ⟨pr2, List.mem_cons_of_mem _ hpr2, h1, h2⟩
      · rintro (h | ⟨pr2, hpr2, h1, h2⟩)
        · exact Or.inl h
        · rcases List.mem_cons.mp hpr2 with rfl | hpr3
          · exact absurd h1 hb
          · exact Or.inr ⟨pr2, hpr3, h1, h2⟩

theorem perBlockFold_getLast :
    ∀ (inss : List (Nat × CInstr)) (b : CBB), b.isJmp = false →
      ∀ lst, b.instrs.getLast? = some lst →
        (perBlockFold inss b).instrs.getLast? = some lst
  | [], _, _, _, hl => hl
  | pr :: inss, b, hj, lst, hl => by
    rw [perBlockFold, List.foldl_cons]
    rw [show (inss.foldl
      (fun b2 pr => if b2.id = pr.1 then b2.insertBeforeEnd pr.2 else b2)
      (if b.id = pr.1 then b.insertBeforeEnd pr.2 else b)) =
      perBlockFold inss (if b.id = pr.1 then b.insertBeforeEnd pr.2 else b)
      from rfl]
    by_cases hb : b.id = pr.1
    · rw [if_pos hb]
      refine perBlockFold_getLast inss _ ?_ lst ?_
      · rw [CBB.isJmp, CBB.insertBeforeEnd_next0, CBB.insertBeforeEnd_next1]
        exact hj
      · exact getLast?_insertBeforeEnd b pr.2 hj lst hl
    · rw [if_neg hb]
      exact perBlockFold_getLast inss b hj lst hl

theorem perBlockFold_follower (pid : Value) :
    ∀ (inss : List (Nat × CInstr)) (b : CBB) (x : CInstr),
      followerIn pid b.instrs = some x →
      ((∃ pr ∈ inss, b.id = pr.1) → b.isJmp = false →
        ∀ lst, b.instrs.getLast? = some lst → lst.id ≠ x.id) →
      followerIn pid (perBlockFold inss b).instrs = some x
  | [], _, _, h, _ => h
  | pr :: inss, b, x, h, hcond => by
    rw [perBlockFold, List.foldl_cons]
    rw [show (inss.foldl
      (fun b2 pr => if b2.id = pr.1 then b2.insertBeforeEnd pr.2 else b2)
      (if b.id = pr.1 then b.insertBeforeEnd pr.2 else b)) =
      perBlockFold inss (if b.id = pr.1 then b.insertBeforeEnd pr.2 else b)
      from rfl]
    by_cases hb : b.id = pr.1
    · rw [if_pos hb]
      cases hj : b.isJmp with
      | true =>
        refine perBlockFold_follower pid inss _ x ?_ ?_
        · rw [CBB.insertBeforeEnd, if_pos hj]
          exact followerIn_mem_append pid pr.2 b.instrs x h
        · intro _ hj2
          rw [CBB.isJmp, CBB.insertBeforeEnd_next0,
            CBB.insertBeforeEnd_next1] at hj2
          rw [CBB.isJmp] at hj
          rw [hj2] at hj
          exact Bool.noConfusion hj
      | false =>
        refine perBlockFold_follower pid inss _ x ?_ ?_
        · rw [CBB.insertBeforeEnd, if_neg (by rw [hj]; exact Bool.noConfusion)]
          exact followerIn_insertBeforeLast pid pr.2 b.instrs x h
            (hcond ⟨pr, List.mem_cons_self _ _, hb⟩ hj)
        · intro _ _ lst hlst
          rw [CBB.insertBeforeEnd,
            if_neg (by rw [hj]; exact Bool.noConfusion)] at hlst
          cases hold : b.instrs.getLast? with
          | none =>
            have hnil : b.instrs = [] := by
              cases hbi : b.instrs with
              | nil => rfl
              | cons y r => exact absurd hold (by rw [hbi]; simp)
            rw [hnil] at h
            exact Option.noConfusion h
          | some lst0 =>
            have := getLast?_insertBeforeEnd b pr.2 hj lst0 hold
            rw [CBB.insertBeforeEnd,
              if_neg (by rw [hj]; exact Bool.noConfusion)] at this
            rw [this] at hlst
            injection hlst with he
            rw [← he]
            exact hcond ⟨pr, List.mem_cons_self _ _, hb⟩ hj lst0 hold
    · rw [if_neg hb]
      refine perBlockFold_follower pid inss b x h ?_
      intro hex
      obtain ⟨pr2, hpr2, hh⟩ := hex
      exact hcond ⟨pr2, List.mem_cons_of_mem _ hpr2, hh⟩

theorem instrIdUnique_of_nodup :
    ∀ (code : CCode), (idsOf code).Nodup → InstrIdUnique code
  | [], _ => fun b1 hb1 => absurd hb1 (List.not_mem_nil b1)
  | b :: code, hnd => by
    rw [idsOf, List.flatMap_cons, List.nodup_append] at hnd
    obtain ⟨hnd1, hnd2, hdisj⟩ := hnd
    have IH := instrIdUnique_of_nodup code hnd2
    intro b1 hb1 i1 hi1 b2 hb2 i2 hi2 hid
    rcases List.mem_cons.mp hb1 with rfl | hb1m
    · rcases List.mem_cons.mp hb2 with rfl | hb2m
      · exact List.inj_on_of_nodup_map hnd1 hi1 hi2 hid
      · have hm1 : i1.id ∈ b1.instrs.map CInstr.id :=
          List.mem_map_of_mem CInstr.id hi1
        have hm2 : i1.id ∈ code.flatMap fun b3 => b3.instrs.map CInstr.id := by
          rw [hid]
          exact List.mem_flatMap.mpr
            ⟨b2, hb2m, List.mem_map_of_mem CInstr.id hi2⟩
        exact (hdisj hm1 hm2).elim
    · rcases List.mem_cons.mp hb2 with rfl | hb2m
      · have hm1 : i1.id ∈ b2.instrs.map CInstr.id := by
          rw [hid]
          exact List.mem_map_of_mem CInstr.id hi2
        have hm2 : i1.id ∈ code.flatMap fun b3 => b3.instrs.map CInstr.id :=
          List.mem_flatMap.mpr ⟨b1, hb1m, List.mem_map_of_mem CInstr.id hi1⟩
        exact (hdisj hm1 hm2).elim
      · exact IH b1 hb1m i1 hi1 b2 hb2m i2 hi2 hid

theorem phiList_snd_sublist :
    ∀ (code : CCode), List.Sublist ((phiList code).map Prod.snd) (idsOf code)
  | [] => List.nil_sublist []
  | b :: code => by
    rw [phiList, idsOf, List.flatMap_cons, List.flatMap_cons, List.map_append]
    refine List.Sublist.append ?_ (phiList_snd_sublist code)
    rw [List.map_map]
    have h1 : List.Sublist (b.instrs.filter fun i => i.tag = CTag.phi)
        b.instrs := List.filter_sublist b.instrs
    have h2 := List.Sublist.map CInstr.id h1
    rw [show ((fun pr => Prod.snd pr) ∘ fun p => ((b.id, p.id) : Nat × Value))
      = CInstr.id from rfl]
    exact h2

theorem find_the_instr (code : CCode) (huniq : InstrIdUnique code) (b : CBB)
    (hb : b ∈ code) (p : CInstr) (hp : p ∈ b.instrs) :
    (code.flatMap CBB.instrs).find? (fun i => i.id = p.id) = some p := by
  have hsome : ((code.flatMap CBB.instrs).find?
      (fun i => i.id = p.id)).isSome := by
    rw [List.find?_isSome]
    exact ⟨p, List.mem_flatMap.mpr ⟨b, hb, hp⟩, by simp⟩
  cases hfind : (code.flatMap CBB.instrs).find? (fun i => i.id = p.id) with
  | none =>
    rw [hfind] at hsome
    exact Bool.noConfusion hsome
  | some j =>
    have hjmem := List.mem_of_find?_eq_some hfind
    have hjid := List.find?_some hfind
    simp only [decide_eq_true_eq] at hjid
    obtain ⟨b2, hb2, hj2⟩ := List.mem_flatMap.mp hjmem
    rw [huniq b2 hb2 j hj2 b hb p hp hjid]

/-- What still holds of a not-yet-processed phi: it is in its block,
    with parallel predecessor lists and predecessors that exist and have
    a successor. -/
def PhiPending (code : CCode) (bId : Nat) (pid : Value) (fresh0 : Nat) :
    Prop :=
  pid < fresh0 ∧
  ∃ b ∈ code, b.id = bId ∧ ∃ p ∈ b.instrs, p.id = pid ∧ p.tag = CTag.phi ∧
    p.preds.length = p.args.length ∧
    (∀ pd ∈ p.preds, ∃ bp ∈ code, bp.id = pd ∧
      (bp.isJmp = true ∨ bp.next1.isSome = true))

/-- The blockwise skeleton (ids and successor edges). -/
def blockKey (b : CBB) : Nat × Option Nat × Option Nat :=
  (b.id, b.next0, b.next1)

/-- The running invariant of the CSSA fold: fresh ids dominate the code,
    ids are unique, the block skeleton is untouched, processed phis are
    in CSSA shape, pending phis are intact, and every branch block still
    ends in its original terminator. -/
def StInv (orig : CCode) (fresh0 : Nat) (processed remaining : List (Nat × Value))
    (st : CCode × Nat) : Prop :=
  fresh0 ≤ st.2 ∧
  (∀ b ∈ st.1, ∀ i ∈ b.instrs, i.id < st.2) ∧
  (∀ b ∈ st.1, ∀ i ∈ b.instrs, ∀ v ∈ i.args, v < st.2) ∧
  InstrIdUnique st.1 ∧
  st.1.map blockKey = orig.map blockKey ∧
  (∀ pb ∈ processed, PhiDone st.1 pb.1 pb.2 fresh0) ∧
  (∀ pb ∈ remaining, PhiPending st.1 pb.1 pb.2 fresh0) ∧
  (∀ b ∈ st.1, b.next1.isSome = true →
    ∃ b0 ∈ orig, b0.id = b.id ∧ b0.next1.isSome = true ∧
      (b.instrs.getLast?).map (fun i => (i.id, i.tag)) =
        (b0.instrs.getLast?).map (fun i => (i.id, i.tag)))

/-- The whole code transformation of one phi-processing step. -/
def stepCode (code : CCode) (fresh : Nat) (bId : Nat) (pid : Value)
    (p : CInstr) : CCode :=
  insertAfterPhi
    (replaceUses
      (setPhiArgs
        ((stepCopies p fresh).foldl
          (fun c2 pr => insertCopyInBlock c2 pr.1 pr.2) code)
        pid ((List.range p.args.length).map (fresh + ·)))
      pid (fresh + p.args.length))
    bId pid ⟨fresh + p.args.length, CTag.copy, [pid], []⟩

theorem processPhiStep_eq (code : CCode) (fresh : Nat) (bId : Nat)
    (pid : Value) (p : CInstr)
    (hfind : (code.flatMap CBB.instrs).find? (fun i => i.id = pid) = some p) :
    processPhiStep (code, fresh) (bId, pid) =
      (stepCode code fresh bId pid p, fresh + p.args.length + 1) := by
  simp only [processPhiStep, hfind, stepCode]

/-- The combined per-instruction rewrite of one step: the phi gets the
    fresh argument list and everything's uses of the phi are redirected
    to the phi copy id. -/
def xfInstr (pid : Value) (na : List Value) (n2 : Value) (i : CInstr) :
    CInstr :=
  if i.id = pid then { i with args := na.map (substV pid n2) }
  else { i with args := i.args.map (substV pid n2) }

/-- The instruction rewrite of the step for phi `p`. -/
def stepXf (p : CInstr) (fresh : Nat) (pid : Value) : CInstr → CInstr :=
  xfInstr pid ((List.range p.args.length).map (fresh + ·))
    (fresh + p.args.length)

/-- The copy of the phi itself. -/
def phiCopyOf (p : CInstr) (fresh : Nat) (pid : Value) : CInstr :=
  ⟨fresh + p.args.length, CTag.copy, [pid], []⟩

/-- The per-block effect of one whole step. -/
def stepBlock (p : CInstr) (fresh : Nat) (bId : Nat) (pid : Value) (b : CBB) :
    CBB :=
  if (perBlockFold (stepCopies p fresh) b).id = bId then
    { perBlockFold (stepCopies p fresh) b with
      instrs := insertAfterInstr (phiCopyOf p fresh pid) pid
        ((perBlockFold (stepCopies p fresh) b).instrs.map
          (stepXf p fresh pid)) }
  else
    { perBlockFold (stepCopies p fresh) b with
      instrs := (perBlockFold (stepCopies p fresh) b).instrs.map
        (stepXf p fresh pid) }

theorem stepCode_eq_map (code : CCode) (fresh : Nat) (bId : Nat) (pid : Value)
    (p : CInstr) :
    stepCode code fresh bId pid p = code.map (stepBlock p fresh bId pid) := by
  have hfun :
      ((fun i : CInstr =>
          { i with args := i.args.map (substV pid (fresh + p.args.length)) }) ∘
        (fun i : CInstr =>
          if i.id = pid then
            { i with args := (List.range p.args.length).map (fresh + ·) }
          else i))
      = stepXf p fresh pid := by
    funext i
    by_cases hi : i.id = pid
    · simp [stepXf, xfInstr, hi]
    · simp [stepXf, xfInstr, hi]
  rw [stepCode, foldInsert_eq_map, setPhiArgs, List.map_map, replaceUses,
    List.map_map, insertAfterPhi, List.map_map]
  apply List.map_congr_left
  intro b _
  dsimp only [Function.comp]
  rw [List.map_map, hfun]
  rfl

theorem stepXf_id (p : CInstr) (fresh : Nat) (pid : Value) (i : CInstr) :
    (stepXf p fresh pid i).id = i.id := by
  rw [stepXf, xfInstr]
  split <;> rfl

theorem stepXf_tag (p : CInstr) (fresh : Nat) (pid : Value) (i : CInstr) :
    (stepXf p fresh pid i).tag = i.tag := by
  rw [stepXf, xfInstr]
  split <;> rfl

theorem stepXf_preds (p : CInstr) (fresh : Nat) (pid : Value) (i : CInstr) :
    (stepXf p fresh pid i).preds = i.preds := by
  rw [stepXf, xfInstr]
  split <;> rfl

theorem stepXf_args_of_ne (p : CInstr) (fresh : Nat) (pid : Value) (i : CInstr)
    (h : i.id ≠ pid) :
    (stepXf p fresh pid i).args =
      i.args.map (substV pid (fresh + p.args.length)) := by
  rw [stepXf, xfInstr, if_neg h]

theorem stepXf_eq_self (p : CInstr) (fresh : Nat) (pid : Value) (i : CInstr)
    (hid : i.id ≠ pid) (hargs : ∀ v ∈ i.args, v ≠ pid) :
    stepXf p fresh pid i = i := by
  rw [stepXf, xfInstr, if_neg hid]
  have h2 : i.args.map (substV pid (fresh + p.args.length)) = i.args := by
    conv_rhs => rw [← List.map_id i.args]
    apply List.map_congr_left
    intro v hv
    show (if v = pid then fresh + p.args.length else v) = v
    exact if_neg (hargs v hv)
  rw [h2]

theorem stepXf_args_mem (p : CInstr) (fresh : Nat) (pid : Value) (i : CInstr)
    (v : Value) (hv : v ∈ (stepXf p fresh pid i).args) :
    (v ∈ i.args ∧ v ≠ pid) ∨ v = fresh + p.args.length ∨
      (i.id = pid ∧ ∃ k, k < p.args.length ∧ v = fresh + k) := by
  rw [stepXf, xfInstr] at hv
  by_cases hi : i.id = pid
  · rw [if_pos hi] at hv
    rcases (mem_map_substV _ _ _ _).mp hv with ⟨hv2, _⟩ | ⟨rfl, _⟩
    · rcases List.mem_map.mp hv2 with ⟨k, hk, rfl⟩
      exact Or.inr (Or.inr ⟨hi, k, List.mem_range.mp hk, rfl⟩)
    · exact Or.inr (Or.inl rfl)
  · rw [if_neg hi] at hv
    rcases (mem_map_substV _ _ _ _).mp hv with ⟨hv2, hvp⟩ | ⟨rfl, _⟩
    · exact Or.inl ⟨hv2, hvp⟩
    · exact Or.inr (Or.inl rfl)

theorem stepCopies_mem (p : CInstr) (fresh : Nat) (pr : Nat × CInstr)
    (hpr : pr ∈ stepCopies p fresh) :
    ∃ k, k < p.args.length ∧
      pr = (p.preds.getD k 0,
        ⟨fresh + k, CTag.copy, [p.args.getD k 0], []⟩) := by
  rw [stepCopies] at hpr
  rcases List.mem_map.mp hpr with ⟨k, hk, rfl⟩
  exact ⟨k, List.mem_range.mp hk, rfl⟩

theorem stepCopies_has (p : CInstr) (fresh : Nat) (k : Nat)
    (hk : k < p.args.length) :
    (p.preds.getD k 0, (⟨fresh + k, CTag.copy, [p.args.getD k 0], []⟩ : CInstr))
      ∈ stepCopies p fresh := by
  rw [stepCopies]
  exact List.mem_map.mpr ⟨k, List.mem_range.mpr hk, rfl⟩

theorem stepBlock_id (p : CInstr) (fresh : Nat) (bId : Nat) (pid : Value)
    (b : CBB) : (stepBlock p fresh bId pid b).id = b.id := by
  rw [stepBlock]
  split <;> exact perBlockFold_id (stepCopies p fresh) b

theorem stepBlock_next0 (p : CInstr) (fresh : Nat) (bId : Nat) (pid : Value)
    (b : CBB) : (stepBlock p fresh bId pid b).next0 = b.next0 := by
  rw [stepBlock]
  split <;> exact perBlockFold_next0 (stepCopies p fresh) b

theorem stepBlock_next1 (p : CInstr) (fresh : Nat) (bId : Nat) (pid : Value)
    (b : CBB) : (stepBlock p fresh bId pid b).next1 = b.next1 := by
  rw [stepBlock]
  split <;> exact perBlockFold_next1 (stepCopies p fresh) b

theorem stepBlock_instrs (p : CInstr) (fresh : Nat) (bId : Nat) (pid : Value)
    (b : CBB) :
    (stepBlock p fresh bId pid b).instrs =
      if b.id = bId then
        insertAfterInstr (phiCopyOf p fresh pid) pid
          ((perBlockFold (stepCopies p fresh) b).instrs.map
            (stepXf p fresh pid))
      else
        (perBlockFold (stepCopies p fresh) b).instrs.map (stepXf p fresh pid)
    := by
  rw [stepBlock]
  by_cases hb : b.id = bId
  · rw [if_pos (show (perBlockFold (stepCopies p fresh) b).id = bId by
      rw [perBlockFold_id]; exact hb), if_pos hb]
  · rw [if_neg (show ¬ (perBlockFold (stepCopies p fresh) b).id = bId by
      rw [perBlockFold_id]; exact hb), if_neg hb]

theorem stepBlock_mem_fwd (p : CInstr) (fresh : Nat) (bId : Nat) (pid : Value)
    (b : CBB) (x : CInstr)
    (hx : x ∈ (stepBlock p fresh bId pid b).instrs) :
    (∃ j ∈ b.instrs, x = stepXf p fresh pid j) ∨
    (∃ pr ∈ stepCopies p fresh, b.id = pr.1 ∧ x = stepXf p fresh pid pr.2) ∨
    (b.id = bId ∧ x = phiCopyOf p fresh pid) := by
  rw [stepBlock_instrs] at hx
  have hmap : x ∈ (perBlockFold (stepCopies p fresh) b).instrs.map
      (stepXf p fresh pid) →
      (∃ j ∈ b.instrs, x = stepXf p fresh pid j) ∨
      (∃ pr ∈ stepCopies p fresh, b.id = pr.1 ∧ x = stepXf p fresh pid pr.2)
      := by
    intro hx2
    rcases List.mem_map.mp hx2 with ⟨j, hj, rfl⟩
    rcases (perBlockFold_mem _ _ _).mp hj with hj2 | ⟨pr, hpr, h1, rfl⟩
    · exact Or.inl ⟨j, hj2, rfl⟩
    · exact Or.inr ⟨pr, hpr, h1, rfl⟩
  by_cases hb : b.id = bId
  · rw [if_pos hb] at hx
    rcases mem_insertAfterInstr _ _ _ _ hx with hx2 | rfl
    · rcases hmap hx2 with h | h
      · exact Or.inl h
      · exact Or.inr (Or.inl h)
    · exact Or.inr (Or.inr ⟨hb, rfl⟩)
  · rw [if_neg hb] at hx
    rcases hmap hx with h | h
    · exact Or.inl h
    · exact Or.inr (Or.inl h)

theorem stepBlock_mem_old (p : CInstr) (fresh : Nat) (bId : Nat) (pid : Value)
    (b : CBB) (j : CInstr) (hj : j ∈ b.instrs) :
    stepXf p fresh pid j ∈ (stepBlock p fresh bId pid b).instrs := by
  rw [stepBlock_instrs]
  have hmap : stepXf p fresh pid j ∈
      (perBlockFold (stepCopies p fresh) b).instrs.map (stepXf p fresh pid) :=
    List.mem_map.mpr ⟨j, (perBlockFold_mem _ _ _).mpr (Or.inl hj), rfl⟩
  by_cases hb : b.id = bId
  · rw [if_pos hb]
    exact mem_of_mem_insertAfterInstr _ _ _ _ hmap
  · rw [if_neg hb]
    exact hmap

theorem stepBlock_mem_copy (p : CInstr) (fresh : Nat) (bId : Nat)
    (pid : Value) (b : CBB) (pr : Nat × CInstr)
    (hpr : pr ∈ stepCopies p fresh) (hb : b.id = pr.1) :
    stepXf p fresh pid pr.2 ∈ (stepBlock p fresh bId pid b).instrs := by
  rw [stepBlock_instrs]
  have hmap : stepXf p fresh pid pr.2 ∈
      (perBlockFold (stepCopies p fresh) b).instrs.map (stepXf p fresh pid) :=
    List.mem_map.mpr
      ⟨pr.2, (perBlockFold_mem _ _ _).mpr (Or.inr ⟨pr, hpr, hb, rfl⟩), rfl⟩
  by_cases hb2 : b.id = bId
  · rw [if_pos hb2]
    exact mem_of_mem_insertAfterInstr _ _ _ _ hmap
  · rw [if_neg hb2]
    exact hmap

theorem stepBlock_mem_pc (p : CInstr) (fresh : Nat) (bId : Nat) (pid : Value)
    (b : CBB) (hb : b.id = bId) (hex : ∃ j ∈ b.instrs, j.id = pid) :
    phiCopyOf p fresh pid ∈ (stepBlock p fresh bId pid b).instrs := by
  rw [stepBlock_instrs, if_pos hb]
  obtain ⟨j, hj, hjid⟩ := hex
  refine c_mem_insertAfterInstr _ _ _ ⟨stepXf p fresh pid j, ?_, ?_⟩
  · exact List.mem_map.mpr ⟨j, (perBlockFold_mem _ _ _).mpr (Or.inl hj), rfl⟩
  · rw [stepXf_id]
    exact hjid

theorem stepBlock_follower_other (p : CInstr) (fresh : Nat) (bId : Nat)
    (pid : Value) (b : CBB) (x : CInstr) (pid2 : Value)
    (hf : followerIn pid2 b.instrs = some x)
    (hcond : (∃ pr ∈ stepCopies p fresh, b.id = pr.1) → b.isJmp = false →
      ∀ lst, b.instrs.getLast? = some lst → lst.id ≠ x.id)
    (hne : pid2 ≠ pid) (hcid : fresh + p.args.length ≠ pid2) :
    followerIn pid2 (stepBlock p fresh bId pid b).instrs =
      some (stepXf p fresh pid x) := by
  rw [stepBlock_instrs]
  have hfold := perBlockFold_follower pid2 (stepCopies p fresh) b x hf hcond
  have hmap : followerIn pid2
      ((perBlockFold (stepCopies p fresh) b).instrs.map (stepXf p fresh pid))
      = some (stepXf p fresh pid x) := by
    rw [followerIn_map pid2 (stepXf p fresh pid) (stepXf_id p fresh pid),
      hfold]
    rfl
  by_cases hb : b.id = bId
  · rw [if_pos hb]
    exact followerIn_insertAfterInstr_other (phiCopyOf p fresh pid) pid2 pid
      hne hcid _ _ hmap
  · rw [if_neg hb]
    exact hmap

theorem stepBlock_follower_self (p : CInstr) (fresh : Nat) (bId : Nat)
    (pid : Value) (b : CBB) (hb : b.id = bId)
    (hex : ∃ j ∈ b.instrs, j.id = pid) :
    followerIn pid (stepBlock p fresh bId pid b).instrs =
      some (phiCopyOf p fresh pid) := by
  rw [stepBlock_instrs, if_pos hb]
  obtain ⟨j, hj, hjid⟩ := hex
  refine followerIn_insertAfterInstr_self _ _ _
    ⟨stepXf p fresh pid j, ?_, ?_⟩
  · exact List.mem_map.mpr ⟨j, (perBlockFold_mem _ _ _).mpr (Or.inl hj), rfl⟩
  · rw [stepXf_id]
    exact hjid

theorem stepBlock_getLast (p : CInstr) (fresh : Nat) (bId : Nat) (pid : Value)
    (b : CBB) (lst : CInstr) (hj : b.isJmp = false)
    (hl : b.instrs.getLast? = some lst) (hlid : lst.id ≠ pid) :
    (stepBlock p fresh bId pid b).instrs.getLast? =
      some (stepXf p fresh pid lst) := by
  rw [stepBlock_instrs]
  have hfold := perBlockFold_getLast (stepCopies p fresh) b hj lst hl
  have hmap : ((perBlockFold (stepCopies p fresh) b).instrs.map
      (stepXf p fresh pid)).getLast? = some (stepXf p fresh pid lst) := by
    rw [getLast?_map_instrs, hfold]
    rfl
  by_cases hb : b.id = bId
  · rw [if_pos hb]
    rw [getLast?_insertAfterInstr]
    · exact hmap
    · intro lst2 hlst2
      rw [hmap] at hlst2
      injection hlst2 with he
      rw [← he, stepXf_id]
      exact hlid
  · rw [if_neg hb]
    exact hmap

theorem getD_mem (l : List Nat) (k : Nat) (hk : k < l.length) :
    l.getD k 0 ∈ l := by
  rw [List.getD_eq_getElem?_getD, List.getElem?_eq_getElem hk]
  exact List.getElem_mem hk

theorem mem_getD (l : List Nat) (x : Nat) (hx : x ∈ l) :
    ∃ k, k < l.length ∧ l.getD k 0 = x := by
  obtain ⟨k, hk, he⟩ := List.mem_iff_getElem.mp hx
  refine ⟨k, hk, ?_⟩
  rw [List.getD_eq_getElem?_getD, List.getElem?_eq_getElem hk]
  exact he

theorem mem_of_getLast?_instr :
    ∀ (l : List CInstr) (a : CInstr), l.getLast? = some a → a ∈ l
  | [], _, h => Option.noConfusion h
  | [x], a, h => by
    injection h with h
    rw [← h]
    exact List.mem_singleton_self x
  | x :: y :: rest, a, h => by
    rw [List.getLast?_cons_cons] at h
    exact List.mem_cons_of_mem _ (mem_of_getLast?_instr (y :: rest) a h)

theorem naList_getD (fresh n k : Nat) (hk : k < n) :
    ((List.range n).map (fresh + ·)).getD k 0 = fresh + k := by
  have hk2 : k < ((List.range n).map (fresh + ·)).length := by
    rw [List.length_map, List.length_range]
    exact hk
  rw [List.getD_eq_getElem?_getD, List.getElem?_eq_getElem hk2]
  simp

theorem naList_nodup (fresh n : Nat) :
    ((List.range n).map (fresh + ·)).Nodup :=
  List.Nodup.map (fun _ _ h => Nat.add_left_cancel h) (List.nodup_range n)

theorem naList_map_substV (fresh n pid n2 : Nat) (hpid : pid < fresh) :
    ((List.range n).map (fresh + ·)).map (substV pid n2) =
      (List.range n).map (fresh + ·) := by
  rw [List.map_map]
  apply List.map_congr_left
  intro k _
  show substV pid n2 (fresh + k) = fresh + k
  have hne : ¬ (fresh + k = pid) := by omega
  rw [substV, if_neg hne]

theorem blockIds_eq (code orig : CCode)
    (h : code.map blockKey = orig.map blockKey) :
    code.map CBB.id = orig.map CBB.id := by
  have h2 := congrArg
    (List.map (fun t : Nat × Option Nat × Option Nat => t.1)) h
  rw [List.map_map, List.map_map] at h2
  exact h2

/-- Where a value that is neither the phi copy id, a copy id, nor the
    phi id itself can be used after one step: either an old use survives
    in place, or it is read by one of the freshly inserted copies and so
    was an incoming value of the phi. -/
theorem step_uses (p : CInstr) (fresh : Nat) (bId : Nat) (pid : Value)
    (b0 : CBB) (i' : CInstr)
    (hi' : i' ∈ (stepBlock p fresh bId pid b0).instrs) (v : Value)
    (hv : v ∈ i'.args) (hvp : v ≠ pid) (hvn : v ≠ fresh + p.args.length)
    (hvk : ∀ k, k < p.args.length → v ≠ fresh + k) :
    (∃ j ∈ b0.instrs, i'.id = j.id ∧ v ∈ j.args) ∨
    (v ∈ p.args ∧ ∃ k, k < p.args.length ∧ i'.id = fresh + k) := by
  rcases stepBlock_mem_fwd p fresh bId pid b0 i' hi' with
    ⟨j, hj, rfl⟩ | ⟨pr, hpr, _, rfl⟩ | ⟨_, rfl⟩
  · rcases stepXf_args_mem p fresh pid j v hv with ⟨h, _⟩ | h | ⟨_, k, hk, h⟩
    · exact Or.inl ⟨j, hj, stepXf_id p fresh pid j, h⟩
    · exact absurd h hvn
    · exact absurd h (hvk k hk)
  · obtain ⟨k, hk, hpr2⟩ := stepCopies_mem p fresh pr hpr
    rcases stepXf_args_mem p fresh pid pr.2 v hv with
      ⟨hvin, _⟩ | h | ⟨_, k2, hk2, h⟩
    · right
      constructor
      · rw [hpr2] at hvin
        have hvk2 : v = p.args.getD k 0 := List.mem_singleton.mp hvin
        rw [hvk2]
        exact getD_mem p.args k hk
      · refine ⟨k, hk, ?_⟩
        rw [stepXf_id, hpr2]
    · exact absurd h hvn
    · exact absurd h (hvk k2 hk2)
  · rw [phiCopyOf] at hv
    have : v = pid := List.mem_singleton.mp hv
    exact absurd this hvp

/-- Any user of the k-th fresh copy id after one step is the phi
    itself. -/
theorem step_uses_freshk (p : CInstr) (fresh : Nat) (bId : Nat) (pid : Value)
    (code : CCode)
    (hargs : ∀ b ∈ code, ∀ i ∈ b.instrs, ∀ v ∈ i.args, v < fresh)
    (hpmem : ∃ bp ∈ code, p ∈ bp.instrs)
    (hpidfr : pid < fresh) (k : Nat) (hk : k < p.args.length)
    (b0 : CBB) (hb0 : b0 ∈ code) (i' : CInstr)
    (hi' : i' ∈ (stepBlock p fresh bId pid b0).instrs)
    (hv : fresh + k ∈ i'.args) : i'.id = pid := by
  obtain ⟨bp, hbp, hpmem2⟩ := hpmem
  rcases stepBlock_mem_fwd p fresh bId pid b0 i' hi' with
    ⟨j, hj, rfl⟩ | ⟨pr, hpr, _, rfl⟩ | ⟨_, rfl⟩
  · rcases stepXf_args_mem p fresh pid j _ hv with ⟨h, _⟩ | h | ⟨hjp, _, _, _⟩
    · have hlt : fresh + k < fresh := hargs b0 hb0 j hj (fresh + k) h
      omega
    · have heq : fresh + k = fresh + p.args.length := h
      omega
    · rw [stepXf_id]
      exact hjp
  · obtain ⟨k2, hk2, hpr2⟩ := stepCopies_mem p fresh pr hpr
    rcases stepXf_args_mem p fresh pid pr.2 _ hv with
      ⟨hvin, _⟩ | h | ⟨hidp, _, _, _⟩
    · rw [hpr2] at hvin
      have hveq : fresh + k = p.args.getD k2 0 := List.mem_singleton.mp hvin
      have hlt : fresh > p.args.getD k2 0 :=
        hargs bp hbp p hpmem2 _ (getD_mem p.args k2 hk2)
      omega
    · have heq : fresh + k = fresh + p.args.length := h
      omega
    · rw [hpr2] at hidp
      have heq : fresh + k2 = pid := hidp
      have hgt : fresh > pid := hpidfr
      omega
  · rw [phiCopyOf] at hv
    have heq : fresh + k = pid := List.mem_singleton.mp hv
    have hgt : fresh > pid := hpidfr
    omega

/-- Any user of the phi id after one step is the fresh phi copy. -/
theorem step_uses_pid (p : CInstr) (fresh : Nat) (bId : Nat) (pid : Value)
    (hpidfr : pid < fresh) (b0 : CBB) (i' : CInstr)
    (hi' : i' ∈ (stepBlock p fresh bId pid b0).instrs)
    (hv : pid ∈ i'.args) : i' = phiCopyOf p fresh pid := by
  rcases stepBlock_mem_fwd p fresh bId pid b0 i' hi' with
    ⟨j, _, rfl⟩ | ⟨pr, hpr, _, rfl⟩ | ⟨_, rfl⟩
  · rcases stepXf_args_mem p fresh pid j _ hv with ⟨_, h⟩ | h | ⟨_, k, _, h⟩
    · exact absurd rfl h
    · have heq : fresh + p.args.length = pid := h.symm
      have hgt : fresh > pid := hpidfr
      omega
    · have heq : fresh + k = pid := h.symm
      have hgt : fresh > pid := hpidfr
      omega
  · rcases stepXf_args_mem p fresh pid pr.2 _ hv with ⟨_, h⟩ | h | ⟨_, k, _, h⟩
    · exact absurd rfl h
    · have heq : fresh + p.args.length = pid := h.symm
      have hgt : fresh > pid := hpidfr
      omega
    · have heq : fresh + k = pid := h.symm
      have hgt : fresh > pid := hpidfr
      omega
  · rfl

/-- A still-pending phi stays pending through the processing of a
    different phi. -/
theorem step_pending_preserved (fresh0 : Nat) (code : CCode) (fresh : Nat)
    (bId : Nat) (pid : Value) (p : CInstr) (bId2 : Nat) (pid2 : Value)
    (hne : pid2 ≠ pid)
    (hpend : PhiPending code bId2 pid2 fresh0) :
    PhiPending (code.map (stepBlock p fresh bId pid)) bId2 pid2 fresh0 := by
  obtain ⟨hlt, br, hbr, hbrid, q, hq, hqid, hqtag, hqlen, hqpreds⟩ := hpend
  refine ⟨hlt, stepBlock p fresh bId pid br, List.mem_map_of_mem _ hbr,
    by rw [stepBlock_id]; exact hbrid, stepXf p fresh pid q,
    stepBlock_mem_old p fresh bId pid br q hq,
    by rw [stepXf_id]; exact hqid,
    by rw [stepXf_tag]; exact hqtag, ?_, ?_⟩
  · rw [stepXf_preds,
      stepXf_args_of_ne p fresh pid q (by rw [hqid]; exact hne),
      List.length_map]
    exact hqlen
  · rw [stepXf_preds]
    intro pd hpd
    obtain ⟨bp, hbp, hbpid, hsucc⟩ := hqpreds pd hpd
    refine ⟨stepBlock p fresh bId pid bp, List.mem_map_of_mem _ hbp,
      by rw [stepBlock_id]; exact hbpid, ?_⟩
    have hj : (stepBlock p fresh bId pid bp).isJmp = bp.isJmp := by
      rw [CBB.isJmp, CBB.isJmp, stepBlock_next0, stepBlock_next1]
    rw [hj, stepBlock_next1]
    exact hsucc

/-- From the invariant, the last instruction of every branch block is a
    non-phi with an original (sub-`fresh0`) id. -/
theorem branch_last_shape (orig : CCode) (fresh0 : Nat) (hWF : CodeWF orig fresh0)
    (code : CCode)
    (h8 : ∀ b2 ∈ code, b2.next1.isSome = true →
      ∃ b0 ∈ orig, b0.id = b2.id ∧ b0.next1.isSome = true ∧
        (b2.instrs.getLast?).map (fun i => (i.id, i.tag)) =
          (b0.instrs.getLast?).map (fun i => (i.id, i.tag)))
    (b2 : CBB) (hb2 : b2 ∈ code) (hbr : b2.next1.isSome = true) :
    ∃ lst, b2.instrs.getLast? = some lst ∧ fresh0 > lst.id ∧
      lst.tag ≠ CTag.phi := by
  obtain ⟨bo, hbo, _, hbobr, hlasteq⟩ := h8 b2 hb2 hbr
  obtain ⟨lst0, hlst0, hlst0tag⟩ := hWF.2.2.2.2.2 bo hbo hbobr
  rw [hlst0] at hlasteq
  cases hbl : b2.instrs.getLast? with
  | none =>
    rw [hbl] at hlasteq
    exact Option.noConfusion hlasteq
  | some lst =>
    rw [hbl] at hlasteq
    injection hlasteq with he
    have hid : lst.id = lst0.id := congrArg Prod.fst he
    have htag : lst.tag = lst0.tag := congrArg Prod.snd he
    refine ⟨lst, rfl, ?_, ?_⟩
    · rw [hid]
      exact hWF.1 lst0.id
        (List.mem_flatMap.mpr
          ⟨bo, hbo, List.mem_map_of_mem _
            (mem_of_getLast?_instr _ _ hlst0)⟩)
    · rw [htag]
      exact hlst0tag

/-- After its own step, a phi is in CSSA shape. -/
theorem step_done_new (fresh0 : Nat) (code : CCode) (fresh : Nat)
    (bId : Nat) (pid : Value) (p : CInstr)
    (hfra : ∀ b2 ∈ code, ∀ i ∈ b2.instrs, ∀ v ∈ i.args, fresh > v)
    (hpidfr : fresh > pid) (hfr0 : fresh0 ≤ fresh)
    (b : CBB) (hb : b ∈ code) (hbid : b.id = bId) (hpm : p ∈ b.instrs)
    (hpid : p.id = pid) (hptag : p.tag = CTag.phi)
    (hplen : p.preds.length = p.args.length)
    (hpreds : ∀ pd ∈ p.preds, ∃ bp ∈ code, bp.id = pd ∧
      (bp.isJmp = true ∨ bp.next1.isSome = true)) :
    PhiDone (code.map (stepBlock p fresh bId pid)) bId pid fresh0 := by
  have hxp : stepXf p fresh pid p =
      { p with args := (List.range p.args.length).map (fresh + ·) } := by
    rw [stepXf, xfInstr, if_pos hpid,
      naList_map_substV fresh p.args.length pid (fresh + p.args.length)
        hpidfr]
  have hlen2 : (stepXf p fresh pid p).args.length = p.args.length := by
    rw [hxp]
    show ((List.range p.args.length).map (fresh + ·)).length = p.args.length
    rw [List.length_map, List.length_range]
  refine ⟨stepBlock p fresh bId pid b, List.mem_map_of_mem _ hb,
    by rw [stepBlock_id]; exact hbid, stepXf p fresh pid p,
    stepBlock_mem_old p fresh bId pid b p hpm, by rw [stepXf_id]; exact hpid,
    by rw [stepXf_tag]; exact hptag, ?_, ?_, ?_, ?_⟩
  · rw [hxp]
    show ((List.range p.args.length).map (fresh + ·)).Nodup
    exact naList_nodup fresh p.args.length
  · rw [stepXf_preds, hlen2]
    exact hplen
  · intro k hk
    have hk' : k < p.args.length := hlen2 ▸ hk
    have hgd : (stepXf p fresh pid p).args.getD k 0 = fresh + k := by
      rw [hxp]
      show ((List.range p.args.length).map (fresh + ·)).getD k 0 = fresh + k
      exact naList_getD fresh p.args.length k hk'
    refine ⟨?_, ?_, ?_⟩
    · rw [hgd]
      omega
    · rw [hgd, stepXf_preds]
      have hpd : p.preds.getD k 0 ∈ p.preds :=
        getD_mem p.preds k (by rw [hplen]; exact hk')
      obtain ⟨bp, hbp, hbpid, _⟩ := hpreds _ hpd
      refine ⟨stepBlock p fresh bId pid bp, List.mem_map_of_mem _ hbp,
        by rw [stepBlock_id]; exact hbpid,
        stepXf p fresh pid ⟨fresh + k, CTag.copy, [p.args.getD k 0], []⟩,
        ?_, ?_, ?_⟩
      · exact stepBlock_mem_copy p fresh bId pid bp _
          (stepCopies_has p fresh k hk') hbpid
      · rw [stepXf_id]
      · rw [stepXf_tag]
    · rw [hgd]
      intro b2' hb2' i' hi' hv
      rcases List.mem_map.mp hb2' with ⟨b0, hb0, rfl⟩
      exact step_uses_freshk p fresh bId pid code hfra ⟨b, hb, hpm⟩ hpidfr
        k hk' b0 hb0 i' hi' hv
  · refine ⟨phiCopyOf p fresh pid,
      stepBlock_follower_self p fresh bId pid b hbid ⟨p, hpm, hpid⟩,
      rfl, rfl, ?_, ?_⟩
    · show fresh0 ≤ fresh + p.args.length
      omega
    · intro b2' hb2' i' hi' hv
      rcases List.mem_map.mp hb2' with ⟨b0, hb0, rfl⟩
      rw [step_uses_pid p fresh bId pid hpidfr b0 i' hi' hv]

/-- A phi already in CSSA shape stays in CSSA shape through the
    processing of a later phi. -/
theorem step_done_preserved (fresh0 : Nat) (code : CCode) (fresh : Nat)
    (bId : Nat) (pid : Value) (p : CInstr)
    (hfr : ∀ b2 ∈ code, ∀ i ∈ b2.instrs, fresh > i.id)
    (hbeq : ∀ b1 ∈ code, ∀ b2 ∈ code, b1.id = b2.id → b1 = b2)
    (hbrl : ∀ b2 ∈ code, b2.next1.isSome = true →
      ∃ lst, b2.instrs.getLast? = some lst ∧ fresh0 > lst.id ∧
        lst.tag ≠ CTag.phi)
    (hpidf0 : fresh0 > pid)
    (b : CBB) (hb : b ∈ code) (hpm : p ∈ b.instrs) (hpid : p.id = pid)
    (hplen : p.preds.length = p.args.length)
    (hpreds : ∀ pd ∈ p.preds, ∃ bp ∈ code, bp.id = pd ∧
      (bp.isJmp = true ∨ bp.next1.isSome = true))
    (bIdq : Nat) (pidq : Value) (hqne : pidq ≠ pid)
    (hdone : PhiDone code bIdq pidq fresh0) :
    PhiDone (code.map (stepBlock p fresh bId pid)) bIdq pidq fresh0 := by
  obtain ⟨bq, hbq, hbqid, q, hq, hqid, hqtag, hqnd, hqlen, hqk, pcq, hfolq,
    hpcqtag, hpcqargs, hpcqfr, hpcqused⟩ := hdone
  have hargs_ne_pid : ∀ v ∈ q.args, v ≠ pid := by
    intro v hv heq
    obtain ⟨k, hk, hgd⟩ := mem_getD q.args v hv
    have hle : fresh0 ≤ q.args.getD k 0 := (hqk k hk).1
    rw [hgd, heq] at hle
    omega
  have hqid_ne : q.id ≠ pid := by rw [hqid]; exact hqne
  have hxq : stepXf p fresh pid q = q :=
    stepXf_eq_self p fresh pid q hqid_ne hargs_ne_pid
  refine ⟨stepBlock p fresh bId pid bq, List.mem_map_of_mem _ hbq,
    by rw [stepBlock_id]; exact hbqid, q, ?_, hqid, hqtag, hqnd, hqlen,
    ?_, ?_⟩
  · have hmm := stepBlock_mem_old p fresh bId pid bq q hq
    rw [hxq] at hmm
    exact hmm
  · intro k hk
    obtain ⟨hfrk, ⟨bp, hbp, hbpid, c, hc, hcid, hctag⟩, hused⟩ := hqk k hk
    have hxfr : fresh > q.args.getD k 0 := by
      have hcf : fresh > c.id := hfr bp hbp c hc
      rw [hcid] at hcf
      exact hcf
    refine ⟨hfrk, ?_, ?_⟩
    · exact ⟨stepBlock p fresh bId pid bp, List.mem_map_of_mem _ hbp,
        by rw [stepBlock_id]; exact hbpid, stepXf p fresh pid c,
        stepBlock_mem_old p fresh bId pid bp c hc,
        by rw [stepXf_id]; exact hcid,
        by rw [stepXf_tag]; exact hctag⟩
    · intro b2' hb2' i' hi' hv
      rcases List.mem_map.mp hb2' with ⟨b0, hb0, rfl⟩
      have hvp : q.args.getD k 0 ≠ pid := by
        intro heq
        rw [heq] at hfrk
        omega
      have hvn : q.args.getD k 0 ≠ fresh + p.args.length := by
        intro heq
        rw [heq] at hxfr
        omega
      have hvk : ∀ k2, k2 < p.args.length →
          q.args.getD k 0 ≠ fresh + k2 := by
        intro k2 _ heq
        rw [heq] at hxfr
        omega
      rcases step_uses p fresh bId pid b0 i' hi' _ hv hvp hvn hvk with
        ⟨j, hj, hid, hvj⟩ | ⟨hvin, _⟩
      · rw [hid]
        exact hused b0 hb0 j hj hvj
      · exfalso
        have hpq := hused b hb p hpm hvin
        rw [hpid] at hpq
        exact hqne hpq.symm
  · have hq_lt : fresh > pidq := by
      have hql := hfr bq hbq q hq
      rw [hqid] at hql
      exact hql
    have hpcq_ne : pcq.id ≠ pid := by
      intro heq
      rw [heq] at hpcqfr
      omega
    have hxpcq : stepXf p fresh pid pcq = pcq := by
      apply stepXf_eq_self p fresh pid pcq hpcq_ne
      rw [hpcqargs]
      intro v hv
      rw [List.mem_singleton.mp hv]
      exact hqne
    have hcond : (∃ pr ∈ stepCopies p fresh, bq.id = pr.1) →
        bq.isJmp = false →
        ∀ lst, bq.instrs.getLast? = some lst → lst.id ≠ pcq.id := by
      intro hex hj lst hlst
      obtain ⟨pr, hpr, hbqpr⟩ := hex
      obtain ⟨k2, hk2, hpr2⟩ := stepCopies_mem p fresh pr hpr
      have hpd : p.preds.getD k2 0 ∈ p.preds :=
        getD_mem p.preds k2 (by rw [hplen]; exact hk2)
      obtain ⟨bp2, hbp2, hbp2id, hsucc⟩ := hpreds _ hpd
      have hbq2 : bq.id = p.preds.getD k2 0 := by rw [hbqpr, hpr2]
      have hbqbp : bq = bp2 := hbeq bq hbq bp2 hbp2 (by rw [hbq2, hbp2id])
      have hbr2 : bq.next1.isSome = true := by
        rcases hsucc with hjm | hbr2
        · rw [← hbqbp] at hjm
          rw [hjm] at hj
          exact Bool.noConfusion hj
        · rw [hbqbp]
          exact hbr2
      obtain ⟨lst2, hlst2, hlstfr, _⟩ := hbrl bq hbq hbr2
      rw [hlst2] at hlst
      injection hlst with he
      intro heq
      rw [he, heq] at hlstfr
      omega
    have hcid2 : fresh + p.args.length ≠ pidq := by
      intro heq
      rw [← heq] at hq_lt
      omega
    have hfol2 := stepBlock_follower_other p fresh bId pid bq pcq pidq
      hfolq hcond hqne hcid2
    rw [hxpcq] at hfol2
    refine ⟨pcq, hfol2, hpcqtag, hpcqargs, hpcqfr, ?_⟩
    intro b2' hb2' i' hi' hv
    rcases List.mem_map.mp hb2' with ⟨b0, hb0, rfl⟩
    have hvn : pidq ≠ fresh + p.args.length := by
      intro heq
      rw [heq] at hq_lt
      omega
    have hvk : ∀ k2, k2 < p.args.length → pidq ≠ fresh + k2 := by
      intro k2 _ heq
      rw [heq] at hq_lt
      omega
    rcases step_uses p fresh bId pid b0 i' hi' _ hv hqne hvn hvk with
      ⟨j, hj, hid, hvj⟩ | ⟨hvin, _⟩
    · rw [hid]
      exact hpcqused b0 hb0 j hj hvj
    · exfalso
      have hpq := hpcqused b hb p hpm hvin
      rw [hpid] at hpq
      rw [← hpq] at hpcqfr
      omega

/-- One phi-processing step preserves the CSSA construction
    invariant. -/
theorem step_preserves (orig : CCode) (fresh0 : Nat)
    (hWF : CodeWF orig fresh0)
    (processed rest : List (Nat × Value)) (bId : Nat) (pid : Value)
    (code : CCode) (fresh : Nat)
    (hnd : ((processed ++ (bId, pid) :: rest).map Prod.snd).Nodup)
    (hinv : StInv orig fresh0 processed ((bId, pid) :: rest) (code, fresh)) :
    StInv orig fresh0 (processed ++ [(bId, pid)]) rest
      (processPhiStep (code, fresh) (bId, pid)) := by
  obtain ⟨h1, h2, h3, h4, h5, h6, h7, h8⟩ := hinv
  have h1' : fresh0 ≤ fresh := h1
  have hfr : ∀ b2 ∈ code, ∀ i ∈ b2.instrs, fresh > i.id := h2
  have hfra : ∀ b2 ∈ code, ∀ i ∈ b2.instrs, ∀ v ∈ i.args, fresh > v := h3
  obtain ⟨hpidlt, b, hb, hbid, p, hp, hpid, hptag, hplen, hpreds⟩ :=
    h7 (bId, pid) (List.mem_cons_self _ _)
  have hpidf0 : fresh0 > pid := hpidlt
  have hpidfr : fresh > pid := by omega
  have hfind : (code.flatMap CBB.instrs).find? (fun i => i.id = pid)
      = some p := by
    have hft := find_the_instr code h4 b hb p hp
    rw [hpid] at hft
    exact hft
  rw [processPhiStep_eq code fresh bId pid p hfind, stepCode_eq_map]
  have hbid_nd : (code.map CBB.id).Nodup := by
    rw [blockIds_eq code orig h5]
    exact hWF.2.2.1
  have hbeq : ∀ b1 ∈ code, ∀ b2 ∈ code, b1.id = b2.id → b1 = b2 :=
    fun b1 hb1 b2 hb2 hid => List.inj_on_of_nodup_map hbid_nd hb1 hb2 hid
  have hbrl : ∀ b2 ∈ code, b2.next1.isSome = true →
      ∃ lst, b2.instrs.getLast? = some lst ∧ fresh0 > lst.id ∧
        lst.tag ≠ CTag.phi := branch_last_shape orig fresh0 hWF code h8
  have hnd2 := hnd
  rw [List.map_append, List.map_cons] at hnd2
  obtain ⟨hndl, hndr, hdisj⟩ := List.nodup_append.mp hnd2
  have hq_ne_pid : ∀ qd ∈ processed, qd.2 ≠ pid := by
    intro qd hqd heq
    exact hdisj (List.mem_map_of_mem Prod.snd hqd)
      (by rw [heq]; exact List.mem_cons_self _ _)
  have hr_ne_pid : ∀ rb ∈ rest, rb.2 ≠ pid := by
    intro rb hrb heq
    have hnm := (List.nodup_cons.mp hndr).1
    have hmem : rb.2 ∈ rest.map Prod.snd :=
      List.mem_map_of_mem Prod.snd hrb
    rw [heq] at hmem
    exact hnm hmem
  refine ⟨?_, ?_, ?_, ?_, ?_, ?_, ?_, ?_⟩
  · show fresh0 ≤ fresh + p.args.length + 1
    omega
  · intro b2' hb2' i' hi'
    rcases List.mem_map.mp hb2' with ⟨b0, hb0, rfl⟩
    rcases stepBlock_mem_fwd p fresh bId pid b0 i' hi' with
      ⟨j, hj, rfl⟩ | ⟨pr, hpr, _, rfl⟩ | ⟨_, rfl⟩
    · have hlt : fresh > j.id := hfr b0 hb0 j hj
      have hg : fresh + p.args.length + 1 > (stepXf p fresh pid j).id := by
        rw [stepXf_id]
        omega
      exact hg
    · obtain ⟨k, hk, hpr2⟩ := stepCopies_mem p fresh pr hpr
      have hg : fresh + p.args.length + 1 >
          (stepXf p fresh pid pr.2).id := by
        rw [stepXf_id, hpr2]
        show fresh + p.args.length + 1 > fresh + k
        omega
      exact hg
    · show fresh + p.args.length + 1 > fresh + p.args.length
      omega
  · intro b2' hb2' i' hi' v hv
    rcases List.mem_map.mp hb2' with ⟨b0, hb0, rfl⟩
    have hgoal : fresh + p.args.length + 1 > v := by
      rcases stepBlock_mem_fwd p fresh bId pid b0 i' hi' with
        ⟨j, hj, heq⟩ | ⟨pr, hpr, _, heq⟩ | ⟨_, heq⟩
      · rw [heq] at hv
        rcases stepXf_args_mem p fresh pid j v hv with
          ⟨hvj, _⟩ | hveq | ⟨_, k, hk, hveq⟩
        · have := hfra b0 hb0 j hj v hvj
          omega
        · have hveq2 : fresh + p.args.length = v := hveq.symm
          omega
        · have hveq2 : fresh + k = v := hveq.symm
          omega
      · rw [heq] at hv
        rcases stepXf_args_mem p fresh pid pr.2 v hv with
          ⟨hvj, _⟩ | hveq | ⟨_, k, hk, hveq⟩
        · obtain ⟨k2, hk2, hpr2⟩ := stepCopies_mem p fresh pr hpr
          rw [hpr2] at hvj
          have hveq3 : v = p.args.getD k2 0 := List.mem_singleton.mp hvj
          have hlt : fresh > p.args.getD k2 0 :=
            hfra b hb p hp _ (getD_mem p.args k2 hk2)
          rw [hveq3]
          omega
        · have hveq2 : fresh + p.args.length = v := hveq.symm
          omega
        · have hveq2 : fresh + k = v := hveq.symm
          omega
      · rw [heq] at hv
        have hveq : v = pid := List.mem_singleton.mp hv
        rw [hveq]
        omega
    exact hgoal
  · intro b1' hb1' i1 hi1 b2' hb2' i2 hi2 hid
    rcases List.mem_map.mp hb1' with ⟨b10, hb10, rfl⟩
    rcases List.mem_map.mp hb2' with ⟨b20, hb20, rfl⟩
    have hcls : ∀ b0 ∈ code, ∀ ii,
        ii ∈ (stepBlock p fresh bId pid b0).instrs →
        (∃ j, (∃ bj ∈ code, j ∈ bj.instrs) ∧ ii = stepXf p fresh pid j ∧
          ii.id = j.id ∧ fresh > j.id) ∨
        (∃ k, k < p.args.length ∧
          ii = stepXf p fresh pid
            ⟨fresh + k, CTag.copy, [p.args.getD k 0], []⟩ ∧
          ii.id = fresh + k) ∨
        (ii = phiCopyOf p fresh pid ∧
          ii.id = fresh + p.args.length) := by
      intro b0 hb0 ii hii
      rcases stepBlock_mem_fwd p fresh bId pid b0 ii hii with
        ⟨j, hj, heq⟩ | ⟨pr, hpr, _, heq⟩ | ⟨_, heq⟩
      · exact Or.inl ⟨j, ⟨b0, hb0, hj⟩, heq, by rw [heq, stepXf_id],
          hfr b0 hb0 j hj⟩
      · obtain ⟨k, hk, hpr2⟩ := stepCopies_mem p fresh pr hpr
        refine Or.inr (Or.inl ⟨k, hk, ?_, ?_⟩)
        · rw [heq, hpr2]
        · rw [heq, stepXf_id, hpr2]
      · exact Or.inr (Or.inr ⟨heq, by rw [heq]; rfl⟩)
    rcases hcls b10 hb10 i1 hi1 with
      ⟨j1, ⟨bj1, hbj1, hjm1⟩, he1, hd1, hl1⟩ | ⟨k1, hk1, he1, hd1⟩ |
      ⟨he1, hd1⟩ <;>
    rcases hcls b20 hb20 i2 hi2 with
      ⟨j2, ⟨bj2, hbj2, hjm2⟩, he2, hd2, hl2⟩ | ⟨k2, hk2, he2, hd2⟩ |
      ⟨he2, hd2⟩
    · have hjid : j1.id = j2.id := by rw [← hd1, ← hd2, hid]
      have hje := h4 bj1 hbj1 j1 hjm1 bj2 hbj2 j2 hjm2 hjid
      rw [he1, he2, hje]
    · exfalso
      have hqe : fresh + k2 = j1.id := by rw [← hd2, ← hid, hd1]
      omega
    · exfalso
      have hqe : fresh + p.args.length = j1.id := by rw [← hd2, ← hid, hd1]
      omega
    · exfalso
      have hqe : fresh + k1 = j2.id := by rw [← hd1, hid, hd2]
      omega
    · have hqe : fresh + k1 = fresh + k2 := by rw [← hd1, ← hd2, hid]
      have hkk : k1 = k2 := by omega
      rw [he1, he2, hkk]
    · exfalso
      have hqe : fresh + k1 = fresh + p.args.length := by
        rw [← hd1, hid, hd2]
      omega
    · exfalso
      have hqe : fresh + p.args.length = j2.id := by rw [← hd1, hid, hd2]
      omega
    · exfalso
      have hqe : fresh + k2 = fresh + p.args.length := by
        rw [← hd2, ← hid, hd1]
      omega
    · rw [he1, he2]
  · have hbk : ∀ bb, blockKey (stepBlock p fresh bId pid bb) = blockKey bb
        := by
      intro bb
      rw [blockKey, blockKey, stepBlock_id, stepBlock_next0,
        stepBlock_next1]
    show (code.map (stepBlock p fresh bId pid)).map blockKey =
      orig.map blockKey
    rw [List.map_map]
    calc code.map (blockKey ∘ stepBlock p fresh bId pid)
        = code.map blockKey := List.map_congr_left (fun bb _ => hbk bb)
      _ = orig.map blockKey := h5
  · intro qd hqd
    rcases List.mem_append.mp hqd with hqd | hqd
    · exact step_done_preserved fresh0 code fresh bId pid p hfr hbeq hbrl
        hpidf0 b hb hp hpid hplen hpreds qd.1 qd.2 (hq_ne_pid qd hqd)
        (h6 qd hqd)
    · have hqe : qd = (bId, pid) := List.mem_singleton.mp hqd
      rw [hqe]
      exact step_done_new fresh0 code fresh bId pid p hfra hpidfr h1'
        b hb hbid hp hpid hptag hplen hpreds
  · intro rb hrb
    exact step_pending_preserved fresh0 code fresh bId pid p rb.1 rb.2
      (hr_ne_pid rb hrb) (h7 rb (List.mem_cons_of_mem _ hrb))
  · intro b2' hb2' hbr'
    rcases List.mem_map.mp hb2' with ⟨b0, hb0, rfl⟩
    rw [stepBlock_next1] at hbr'
    obtain ⟨bo, hbo, hboid, hbobr, hlasteq⟩ := h8 b0 hb0 hbr'
    obtain ⟨lst, hlst, hlstfr, hlsttag⟩ := hbrl b0 hb0 hbr'
    have hj0 : b0.isJmp = false := by
      cases hn1 : b0.next1 with
      | none =>
        rw [hn1] at hbr'
        exact Bool.noConfusion hbr'
      | some y =>
        rw [CBB.isJmp, hn1]
        exact Bool.and_false _
    have hlstpid : lst.id ≠ pid := by
      intro heq
      have hlm : lst ∈ b0.instrs := mem_of_getLast?_instr _ _ hlst
      have hlp : lst = p := h4 b0 hb0 lst hlm b hb p hp (by rw [heq, hpid])
      rw [hlp] at hlsttag
      exact hlsttag hptag
    refine ⟨bo, hbo, by rw [stepBlock_id]; exact hboid, hbobr, ?_⟩
    rw [stepBlock_getLast p fresh bId pid b0 lst hj0 hlst hlstpid]
    rw [hlst] at hlasteq
    rw [← hlasteq]
    show some ((stepXf p fresh pid lst).id, (stepXf p fresh pid lst).tag)
      = some (lst.id, lst.tag)
    rw [stepXf_id, stepXf_tag]

theorem fold_preserves (orig : CCode) (fresh0 : Nat)
    (hWF : CodeWF orig fresh0) :
    ∀ (todo done : List (Nat × Value)) (st : CCode × Nat),
      ((done ++ todo).map Prod.snd).Nodup →
      StInv orig fresh0 done todo st →
      StInv orig fresh0 (done ++ todo) [] (todo.foldl processPhiStep st)
  | [], done, st, _, hinv => by
    rw [List.foldl_nil, List.append_nil]
    exact hinv
  | pb :: todo, done, st, hnd, hinv => by
    obtain ⟨code, fresh⟩ := st
    obtain ⟨bId, pid⟩ := pb
    rw [List.foldl_cons]
    have hstep := step_preserves orig fresh0 hWF done todo bId pid code
      fresh hnd hinv
    have hnd2 : (((done ++ [(bId, pid)]) ++ todo).map Prod.snd).Nodup := by
      rw [List.append_assoc]
      exact hnd
    have hres := fold_preserves orig fresh0 hWF todo (done ++ [(bId, pid)])
      (processPhiStep (code, fresh) (bId, pid)) hnd2 hstep
    rw [List.append_assoc] at hres
    exact hres

theorem init_inv (code : CCode) (fresh : Nat) (hWF : CodeWF code fresh) :
    StInv code fresh [] (phiList code) (code, fresh) := by
  refine ⟨le_refl fresh, ?_, ?_, instrIdUnique_of_nodup code hWF.2.1, rfl,
    ?_, ?_, ?_⟩
  · intro b hb i hi
    exact hWF.1 i.id
      (List.mem_flatMap.mpr ⟨b, hb, List.mem_map_of_mem _ hi⟩)
  · exact hWF.2.2.2.1
  · intro pb hpb
    exact absurd hpb (List.not_mem_nil pb)
  · intro pb hpb
    rw [phiList] at hpb
    rcases List.mem_flatMap.mp hpb with ⟨b, hb, hmem⟩
    rcases List.mem_map.mp hmem with ⟨q, hq, rfl⟩
    have hqf := List.mem_filter.mp hq
    have hqtag : q.tag = CTag.phi := of_decide_eq_true hqf.2
    obtain ⟨hlen, hpreds⟩ := hWF.2.2.2.2.1 b hb q hqf.1 hqtag
    exact ⟨hWF.1 q.id
      (List.mem_flatMap.mpr ⟨b, hb, List.mem_map_of_mem _ hqf.1⟩),
      b, hb, rfl, q, hqf.1, rfl, hqtag, hlen, hpreds⟩
  · intro b2 hb2 hbr
    exact ⟨b2, hb2, rfl, hbr, rfl⟩

/-- C6: after the CSSA transformation, every operand of every phi is a
    freshly inserted copy, placed in the corresponding predecessor block
    and used only by that phi; a fresh copy of the phi sits immediately
    after the phi, owns every remaining use of it, and every block that
    ends in a branch still ends in its original terminator, so the
    predecessor copies sit before the terminating branch. -/
theorem toCSSA_spec (code : CCode) (fresh : Nat) (hWF : CodeWF code fresh) :
    (∀ pb ∈ phiList code, PhiDone (toCSSA code fresh).1 pb.1 pb.2 fresh) ∧
    (∀ b2 ∈ (toCSSA code fresh).1, b2.next1.isSome = true →
      ∃ b0 ∈ code, b0.id = b2.id ∧ b0.next1.isSome = true ∧
        (b2.instrs.getLast?).map (fun i => (i.id, i.tag)) =
          (b0.instrs.getLast?).map (fun i => (i.id, i.tag))) := by
  have hnd0 : ((([] : List (Nat × Value)) ++ phiList code).map
      Prod.snd).Nodup := by
    rw [List.nil_append]
    exact List.Sublist.nodup (phiList_snd_sublist code) hWF.2.1
  have hres := fold_preserves code fresh hWF (phiList code) [] (code, fresh)
    hnd0 (init_inv code fresh hWF)
  rw [List.nil_append] at hres
  obtain ⟨_, _, _, _, _, h6, _, h8⟩ := hres
  exact ⟨fun pb hpb => h6 pb hpb, fun b2 hb2 hbr => h8 b2 hb2 hbr⟩

instance decLastNonPhi :
    ∀ (o : Option CInstr), Decidable (∃ lst, o = some lst ∧
      lst.tag ≠ CTag.phi)
  | none => isFalse (by rintro ⟨lst, h, _⟩; exact Option.noConfusion h)
  | some x =>
    if h : x.tag ≠ CTag.phi then isTrue ⟨x, rfl, h⟩
    else isFalse (by
      rintro ⟨lst, hl, ht⟩
      injection hl with hl
      rw [← hl] at ht
      exact h ht)

/-- A diamond: entry branches to two blocks that both jump to a merge
    block holding one phi. -/
def exC6 : CCode :=
  [⟨1, [⟨1, CTag.other, [], []⟩, ⟨2, CTag.other, [1], []⟩], some 2, some 3⟩,
   ⟨2, [⟨3, CTag.other, [1], []⟩], some 4, none⟩,
   ⟨3, [⟨4, CTag.other, [1], []⟩], some 4, none⟩,
   ⟨4, [⟨5, CTag.phi, [3, 4], [2, 3]⟩, ⟨6, CTag.other, [5], []⟩],
     none, none⟩]

/-- Witness for C6 on the diamond. -/
theorem toCSSA_spec_witness :
    CodeWF exC6 7 ∧
    ((∀ pb ∈ phiList exC6, PhiDone (toCSSA exC6 7).1 pb.1 pb.2 7) ∧
     (∀ b2 ∈ (toCSSA exC6 7).1, b2.next1.isSome = true →
       ∃ b0 ∈ exC6, b0.id = b2.id ∧ b0.next1.isSome = true ∧
         (b2.instrs.getLast?).map (fun i => (i.id, i.tag)) =
           (b0.instrs.getLast?).map (fun i => (i.id, i.tag)))) :=
  ⟨by unfold CodeWF; decide, toCSSA_spec exC6 7 (by unfold CodeWF; decide)⟩

end Rir
